import Mathlib

/-!
# SimpleVector (simple_vector.h): a shallow embedding

The dynamic array of `simple_vector.h` is embedded as a record of its three
private members.  The owned buffer `items_` is a list holding one entry per
allocated slot; `size_` and `capacity_` are the two counters of the class.

Conventions of the embedding:

* An iterator is a raw pointer into the buffer; it is represented by its
  offset from `begin()`.
* Every slot access is checked against the length of the buffer.  An access
  outside the allocated block is undefined behaviour in C++ and is reported
  as `Fault.undefinedBehaviour`; the exception thrown by `At` is
  `Fault.outOfRange`.
* `std::move` of an element is a transfer of its value; the value left behind
  in the source slot is kept as it was (as it is for trivially movable types).
* A parameter of type `const Type&` may refer to an element of the array the
  operation is called on, as in `v.PushBack(v[0])`.  Such a reference is read
  from the block the array owned on entry, and reading it after that block
  has been released is undefined behaviour.
* A freshly allocated block holds contents that are a parameter of the
  element type (`Element.raw`), not the value of `Type{}`.
* `size_t` counters are natural numbers and allocation always succeeds: a
  counter could only wrap after a block of at least `2 ^ 63` slots had been
  allocated.
-/

deriving instance DecidableEq for Except

namespace SimpleVec

/-- The two ways an operation can fail to produce a result. -/
inductive Fault where
  | outOfRange
  | undefinedBehaviour
  deriving DecidableEq, Repr

/-- Modelled from the spec: the element type `Type` of the template, as far as
allocation needs it.  `default` is the value of `Type()` and `Type{}`.  `raw k` is
what slot `k` of a block holds right after `array_ptr.h`, which is not part of
the sources, has allocated it: the spec calls the slots default-constructed,
which for a scalar type leaves them indeterminate, so nothing is assumed about
`raw`. -/
class Element (α : Type) extends Inhabited α where
  raw : Nat → α

/-- Modelled from the spec: `array_ptr.h` (the owned buffer `ArrayPtr<Type>`) is
not part of the sources.  The spec describes `allocate(n)` as returning a buffer
owning `n` default-constructed slots; their contents are `Element.raw`. -/
def ArrayPtr.alloc {α : Type} [Element α] (n : Nat) : List α :=
  (List.range n).map Element.raw

/-- The element type `int` as used in the examples: `int{}` is 0, and the
contents of a fresh block, indeterminate in C++, are shown as 171. -/
instance instElementNat : Element Nat where
  default := 0
  raw := fun _ => 171

/-- What a parameter of type `const Type&` refers to when an operation of an array
is called: an object outside the storage of the array, or the element in slot
`i` of the buffer of the array itself. -/
inductive ItemRef (α : Type) where
  | object (x : α)
  | slot (i : Nat)
  deriving DecidableEq, Repr

/-- Read of slot `i` of a buffer (`buf[i]` used as a value). -/
def load {α : Type} (buf : List α) (i : Nat) : Except Fault α :=
  match buf[i]? with
  | some x => .ok x
  | none => .error .undefinedBehaviour

/-- Read through a `const Type&` parameter.  `entry` is the block the array owned
when the operation was entered and `released` tells whether that block has been
released since then; a reference into a released block dangles. -/
def readItem {α : Type} (item : ItemRef α) (entry : List α) (released : Bool) :
    Except Fault α :=
  match item with
  | .object x => .ok x
  | .slot i => if released then .error .undefinedBehaviour else load entry i

/-- Write of slot `i` of a buffer (`buf[i] = x`). -/
def store {α : Type} (buf : List α) (i : Nat) (x : α) : Except Fault (List α) :=
  if i < buf.length then .ok (buf.set i x) else .error .undefinedBehaviour

/-- The loop of `std::copy` / `std::move` over `k` elements: reads
`src[first], src[first+1], ...` and writes `dst[d], dst[d+1], ...`, in
increasing order, `src` and `dst` being distinct buffers. -/
def copyLoop {α : Type} (src : List α) (first : Nat) (dst : List α) (d : Nat) :
    Nat → Except Fault (List α)
  | 0 => .ok dst
  | k + 1 =>
    match load src first with
    | .error e => .error e
    | .ok x =>
      match store dst d x with
      | .error e => .error e
      | .ok dst1 => copyLoop src (first + 1) dst1 (d + 1) k

/-- The call `std::copy(first, last, d_first)` on offsets into two distinct
buffers; `last` before `first` is an invalid range. -/
def copyRange {α : Type} (src : List α) (first last : Nat) (dst : List α) (d : Nat) :
    Except Fault (List α) :=
  if first ≤ last then copyLoop src first dst d (last - first)
  else .error .undefinedBehaviour

/-- The loop of `std::move_backward` over `k` elements: reads
`src[last-1], src[last-2], ...` and writes `dst[dLast-1], dst[dLast-2], ...`. -/
def moveBackwardLoop {α : Type} (src : List α) (last : Nat) (dst : List α) (dLast : Nat) :
    Nat → Except Fault (List α)
  | 0 => .ok dst
  | k + 1 =>
    if last = 0 ∨ dLast = 0 then .error .undefinedBehaviour
    else
      match load src (last - 1) with
      | .error e => .error e
      | .ok x =>
        match store dst (dLast - 1) x with
        | .error e => .error e
        | .ok dst1 => moveBackwardLoop src (last - 1) dst1 (dLast - 1) k

/-- The call `std::move_backward(first, last, d_last)` on offsets into two
distinct buffers. -/
def moveBackward {α : Type} (src : List α) (first last : Nat) (dst : List α) (dLast : Nat) :
    Except Fault (List α) :=
  if first ≤ last then moveBackwardLoop src last dst dLast (last - first)
  else .error .undefinedBehaviour

/-- The loop of `std::move(first, last, d_first)` when source and destination
are the same buffer: each step reads the buffer as the previous steps left it. -/
def moveWithinLoop {α : Type} (buf : List α) (first d : Nat) : Nat → Except Fault (List α)
  | 0 => .ok buf
  | k + 1 =>
    match load buf first with
    | .error e => .error e
    | .ok x =>
      match store buf d x with
      | .error e => .error e
      | .ok buf1 => moveWithinLoop buf1 (first + 1) (d + 1) k

/-- The call `std::move(first, last, d_first)` inside one buffer. -/
def moveWithin {α : Type} (buf : List α) (first last d : Nat) : Except Fault (List α) :=
  if first ≤ last then moveWithinLoop buf first d (last - first)
  else .error .undefinedBehaviour

/-- The loop `for (i = from; i != to; ++i) buf[i] = x` run for `k` iterations. -/
def fillLoop {α : Type} (buf : List α) (i : Nat) (x : α) : Nat → Except Fault (List α)
  | 0 => .ok buf
  | k + 1 =>
    match store buf i x with
    | .error e => .error e
    | .ok buf1 => fillLoop buf1 (i + 1) x k

/-- The class `SimpleVector<Type>`: its private members. -/
structure SimpleVector (α : Type) where
  items_ : List α
  size_ : Nat
  capacity_ : Nat
  deriving DecidableEq, Repr

variable {α : Type}

/-- The live elements: the slots `[0, size_)` of the buffer, in order. -/
def SimpleVector.live (v : SimpleVector α) : List α :=
  v.items_.take v.size_

/-- Constructor `SimpleVector() noexcept = default`. -/
def SimpleVector.empty : SimpleVector α :=
  { items_ := [], size_ := 0, capacity_ := 0 }

/-- Constructor `explicit SimpleVector(size_t size)`. -/
def SimpleVector.ofSize [Element α] (size : Nat) : Except Fault (SimpleVector α) :=
  match fillLoop (ArrayPtr.alloc size : List α) 0 default size with
  | .error e => .error e
  | .ok items => .ok { items_ := items, size_ := size, capacity_ := size }

/-- Constructor `SimpleVector(size_t size, const Type& value)`. -/
def SimpleVector.ofSizeValue [Element α] (size : Nat) (value : α) :
    Except Fault (SimpleVector α) :=
  match fillLoop (ArrayPtr.alloc size : List α) 0 value size with
  | .error e => .error e
  | .ok items => .ok { items_ := items, size_ := size, capacity_ := size }

/-- Constructor `SimpleVector(std::initializer_list<Type> init)`. -/
def SimpleVector.ofList [Element α] (init : List α) : Except Fault (SimpleVector α) :=
  match copyRange init 0 init.length (ArrayPtr.alloc init.length) 0 with
  | .error e => .error e
  | .ok items => .ok { items_ := items, size_ := init.length, capacity_ := init.length }

/-- Method `void Reserve(size_t new_size)`. -/
def SimpleVector.Reserve [Element α] (v : SimpleVector α) (new_size : Nat) :
    Except Fault (SimpleVector α) :=
  if new_size > v.capacity_ then
    match copyRange v.items_ 0 v.size_ (ArrayPtr.alloc new_size) 0 with
    | .error e => .error e
    | .ok temp => .ok { v with items_ := temp, capacity_ := new_size }
  else .ok v

/-- Constructor `SimpleVector(ReserveProxyObj obj)`: the members start from their default
initialisers and the body is that of `Reserve`. -/
def SimpleVector.ofReserve [Element α] (reserve_size : Nat) : Except Fault (SimpleVector α) :=
  SimpleVector.Reserve SimpleVector.empty reserve_size

/-- Constructor `SimpleVector(const SimpleVector& other)`. -/
def SimpleVector.copy [Element α] (other : SimpleVector α) : Except Fault (SimpleVector α) :=
  match copyRange other.items_ 0 other.size_ (ArrayPtr.alloc other.size_) 0 with
  | .error e => .error e
  | .ok items => .ok { items_ := items, size_ := other.size_, capacity_ := other.size_ }

/-- Method `void swap(SimpleVector& other) noexcept`: the pair is (`*this`, `other`). -/
def SimpleVector.swap (v other : SimpleVector α) : SimpleVector α × SimpleVector α :=
  ({ items_ := other.items_, size_ := other.size_, capacity_ := other.capacity_ },
   { items_ := v.items_, size_ := v.size_, capacity_ := v.capacity_ })

/-- Constructor `SimpleVector(SimpleVector&& other)`: the pair is (the new object, `other`
after the call). -/
def SimpleVector.moveCtor (other : SimpleVector α) : SimpleVector α × SimpleVector α :=
  let this0 : SimpleVector α := { items_ := [], size_ := 0, capacity_ := 0 }
  ({ items_ := other.items_, size_ := other.size_, capacity_ := other.capacity_ },
   { items_ := this0.items_, size_ := this0.size_, capacity_ := this0.capacity_ })

/-- Method `SimpleVector& operator=(const SimpleVector& rhs)`: the three exchanges with
the temporary are carried out one after the other, as written. -/
def SimpleVector.assign [Element α] (v rhs : SimpleVector α) : Except Fault (SimpleVector α) :=
  match SimpleVector.copy rhs with
  | .error e => .error e
  | .ok temp =>
    -- items_.swap(temp.items_)
    let v1 := { v with items_ := temp.items_ }
    let t1 := { temp with items_ := v.items_ }
    -- std::swap(size_, temp.size_)
    let v2 := { v1 with size_ := t1.size_ }
    let t2 := { t1 with size_ := v1.size_ }
    -- std::swap(capacity_, temp.size_)
    let v3 := { v2 with capacity_ := t2.size_ }
    .ok v3

/-- Method `size_t GetSize() const noexcept`. -/
def SimpleVector.GetSize (v : SimpleVector α) : Nat := v.size_

/-- Method `size_t GetCapacity() const noexcept`. -/
def SimpleVector.GetCapacity (v : SimpleVector α) : Nat := v.capacity_

/-- Method `bool IsEmpty() const noexcept`. -/
def SimpleVector.IsEmpty (v : SimpleVector α) : Bool :=
  if v.size_ = 0 then true else false

/-- Method `Type& operator[](size_t index) noexcept`, read as a value. -/
def SimpleVector.index (v : SimpleVector α) (index : Nat) : Except Fault α :=
  load v.items_ index

/-- Method `Type& At(size_t index)`: the outcome of the call and the array after it. -/
def SimpleVector.At (v : SimpleVector α) (index : Nat) : Except Fault α × SimpleVector α :=
  if index ≥ v.size_ then (.error .outOfRange, v)
  else (load v.items_ index, v)

/-- Method `void Clear() noexcept`. -/
def SimpleVector.Clear (v : SimpleVector α) : SimpleVector α :=
  { v with size_ := 0 }

/-- Method `void Resize(size_t new_size)`. -/
def SimpleVector.Resize [Element α] (v : SimpleVector α) (new_size : Nat) :
    Except Fault (SimpleVector α) :=
  if new_size ≤ v.size_ then .ok { v with size_ := new_size }
  else
    let new_size := max new_size (v.capacity_ * 2)
    match copyRange v.items_ 0 v.size_ (ArrayPtr.alloc new_size) 0 with
    | .error e => .error e
    | .ok to_copy =>
      match fillLoop to_copy v.size_ default (new_size - v.size_) with
      | .error e => .error e
      | .ok to_copy => .ok { items_ := to_copy, size_ := new_size, capacity_ := new_size }

/-- Method `void PushBack(const Type& item)`.  The parameter is a reference and is
read only in the final assignment `items_[index] = std::move(item)`: by then
`temp` (lines 171-174) or `to_copy` inside the growing branch of `Resize` has
left scope holding the block the array owned on entry, which is thereby
released. -/
def SimpleVector.PushBack [Element α] (v : SimpleVector α) (item : ItemRef α) :
    Except Fault (SimpleVector α) :=
  let v1 : SimpleVector α :=
    if v.capacity_ = 0 then { v with items_ := ArrayPtr.alloc 1, capacity_ := 1 } else v
  let released1 : Bool := decide (v.capacity_ = 0)
  let index := v1.size_
  if v1.size_ < v1.capacity_ then
    match readItem item v.items_ released1 with
    | .error e => .error e
    | .ok x =>
      match store v1.items_ index x with
      | .error e => .error e
      | .ok items => .ok { v1 with items_ := items, size_ := v1.size_ + 1 }
  else
    let new_size := v1.capacity_ * 2
    match SimpleVector.Resize v1 new_size with
    | .error e => .error e
    | .ok v2 =>
      let released2 : Bool := released1 || decide (v1.size_ < new_size)
      let v3 := { v2 with size_ := index + 1 }
      match readItem item v.items_ released2 with
      | .error e => .error e
      | .ok x =>
        match store v3.items_ index x with
        | .error e => .error e
        | .ok items => .ok { v3 with items_ := items }

/-- Method `Iterator Insert(ConstIterator pos, const Type& value)`: `pos` is the offset
of the position from `begin()`; the result is the array after the call and the
offset of the returned iterator in its buffer. -/
def SimpleVector.Insert [Element α] (v : SimpleVector α) (pos : Nat) (value : α) :
    Except Fault (SimpleVector α × Nat) :=
  let new_size := if v.size_ < v.capacity_ then v.size_ + 1
    else if v.capacity_ = 0 then 1 else v.capacity_ * 2
  let capacity1 := if v.size_ < v.capacity_ then v.capacity_ else new_size
  match copyRange v.items_ 0 pos (ArrayPtr.alloc new_size) 0 with
  | .error e => .error e
  | .ok temp =>
    let index := pos
    match store temp index value with
    | .error e => .error e
    | .ok temp =>
      match moveBackward v.items_ pos v.size_ temp (v.size_ + 1) with
      | .error e => .error e
      | .ok temp =>
        .ok ({ items_ := temp, size_ := v.size_ + 1, capacity_ := capacity1 }, index)

/-- Method `void PopBack() noexcept`. -/
def SimpleVector.PopBack (v : SimpleVector α) : SimpleVector α :=
  if v.size_ ≠ 0 then { v with size_ := v.size_ - 1 } else v

/-- Method `Iterator Erase(ConstIterator pos)`: `pos` is the offset of the position from
`begin()`; the result is the array after the call and the offset of the returned
iterator. -/
def SimpleVector.Erase (v : SimpleVector α) (pos : Nat) : Except Fault (SimpleVector α × Nat) :=
  let index := pos
  match moveWithin v.items_ (pos + 1) v.size_ pos with
  | .error e => .error e
  | .ok items => .ok ({ v with items_ := items, size_ := v.size_ - 1 }, index)

/-- Method `Insert` called with a reference: `value` is read at line 202, when the
block the array owned on entry is still held by `items_` (the exchange with
`temp` comes at line 204 and the release at the end of the body), so a
reference to an own slot is read from that block. -/
def SimpleVector.InsertRef [Element α] (v : SimpleVector α) (pos : Nat) (value : ItemRef α) :
    Except Fault (SimpleVector α × Nat) :=
  match readItem value v.items_ false with
  | .error e => .error e
  | .ok x => SimpleVector.Insert v pos x

/-- A run of `PushBack` calls, one per reference of `items`, in order; a slot
reference is into the buffer the array has when its call is made. -/
def SimpleVector.pushAll [Element α] (v : SimpleVector α) :
    List (ItemRef α) → Except Fault (SimpleVector α)
  | [] => .ok v
  | item :: items =>
    match SimpleVector.PushBack v item with
    | .error e => .error e
    | .ok v1 => SimpleVector.pushAll v1 items

/-- The right operand of an assignment `a = ...`: the array `a` itself or another
object. -/
inductive AssignSource (α : Type) where
  | self
  | other (b : SimpleVector α)

/-- The array a right operand stands for before the assignment to `a`. -/
def AssignSource.array (a : SimpleVector α) : AssignSource α → SimpleVector α
  | .self => a
  | .other b => b

/-- The statement `a = std::move(b)`.  The class declares a copy constructor, a
move constructor and `operator=(const SimpleVector&)` only, so no move assignment
exists and the call binds the right operand to the `const&` parameter of the
copy assignment.  The pair is (`a`, the right operand) after the statement:
another object is not written through the `const&`, while with `a` itself as
the right operand the source is the assigned array. -/
def SimpleVector.assignMoved [Element α] (a : SimpleVector α) (b : AssignSource α) :
    Except Fault (SimpleVector α × SimpleVector α) :=
  match SimpleVector.assign a (b.array a) with
  | .error e => .error e
  | .ok w =>
    match b with
    | .self => .ok (w, w)
    | .other b1 => .ok (w, b1)

/-- The loop of `std::lexicographical_compare(first1, last1, first2, last2)` with
`k` elements left in the first range: `*first1 < *first2` answers true,
`*first2 < *first1` answers false, otherwise both positions advance; when a range
is used up the answer is `first1 == last1 && first2 != last2`. -/
def lexCompareLoop [LT α] [DecidableRel (fun (x y : α) => x < y)]
    (b1 : List α) (first1 : Nat) (b2 : List α) (first2 last2 : Nat) :
    Nat → Except Fault Bool
  | 0 => .ok (decide (first2 ≠ last2))
  | k + 1 =>
    if first2 = last2 then .ok false
    else
      match load b1 first1 with
      | .error e => .error e
      | .ok x =>
        match load b2 first2 with
        | .error e => .error e
        | .ok y =>
          if x < y then .ok true
          else if y < x then .ok false
          else lexCompareLoop b1 (first1 + 1) b2 (first2 + 1) last2 k

/-- The call `std::lexicographical_compare(first1, last1, first2, last2)` on
offsets into two buffers. -/
def lexicographical_compare [LT α] [DecidableRel (fun (x y : α) => x < y)]
    (b1 : List α) (first1 last1 : Nat) (b2 : List α) (first2 last2 : Nat) :
    Except Fault Bool :=
  if first1 ≤ last1 ∧ first2 ≤ last2 then
    lexCompareLoop b1 first1 b2 first2 last2 (last1 - first1)
  else .error .undefinedBehaviour

/-- The free function `operator<`: `lexicographical_compare` over
`[lhs.begin(), lhs.end())` and `[rhs.begin(), rhs.end())`. -/
def SimpleVector.less [LT α] [DecidableRel (fun (x y : α) => x < y)]
    (lhs rhs : SimpleVector α) : Except Fault Bool :=
  lexicographical_compare lhs.items_ 0 lhs.size_ rhs.items_ 0 rhs.size_

/-- The free function `operator>=`: `!(lhs < rhs)`. -/
def SimpleVector.greaterEq [LT α] [DecidableRel (fun (x y : α) => x < y)]
    (lhs rhs : SimpleVector α) : Except Fault Bool :=
  match SimpleVector.less lhs rhs with
  | .error e => .error e
  | .ok lt => .ok (!lt)

/-- The free function `operator>`: `!(lhs < rhs) && !(lhs >= rhs)`, the right
operand of `&&` being evaluated only when the left one is true. -/
def SimpleVector.greater [LT α] [DecidableRel (fun (x y : α) => x < y)]
    (lhs rhs : SimpleVector α) : Except Fault Bool :=
  match SimpleVector.less lhs rhs with
  | .error e => .error e
  | .ok lt =>
    if !lt then
      match SimpleVector.greaterEq lhs rhs with
      | .error e => .error e
      | .ok ge => .ok (!ge)
    else .ok false

/-- The free function `operator<=`: `!(lhs > rhs)`. -/
def SimpleVector.lessEq [LT α] [DecidableRel (fun (x y : α) => x < y)]
    (lhs rhs : SimpleVector α) : Except Fault Bool :=
  match SimpleVector.greater lhs rhs with
  | .error e => .error e
  | .ok gt => .ok (!gt)

/-- The free function `operator==`: `!(lhs > rhs) && !(lhs < rhs)`. -/
def SimpleVector.equal [LT α] [DecidableRel (fun (x y : α) => x < y)]
    (lhs rhs : SimpleVector α) : Except Fault Bool :=
  match SimpleVector.greater lhs rhs with
  | .error e => .error e
  | .ok gt =>
    if !gt then
      match SimpleVector.less lhs rhs with
      | .error e => .error e
      | .ok lt => .ok (!lt)
    else .ok false

/-- The free function `operator!=`: `(lhs > rhs) || (lhs < rhs)`, the right operand
of `||` being evaluated only when the left one is false. -/
def SimpleVector.notEqual [LT α] [DecidableRel (fun (x y : α) => x < y)]
    (lhs rhs : SimpleVector α) : Except Fault Bool :=
  match SimpleVector.greater lhs rhs with
  | .error e => .error e
  | .ok gt =>
    if gt then .ok true
    else SimpleVector.less lhs rhs

/-! ## Objects in a free store

The record `SimpleVector` carries its buffer by value.  To speak about two
objects not sharing storage, the same objects are also viewed inside a free
store: a list of blocks, the address of a block being its position. -/

/-- A `SimpleVector` object inside a free store: `items_` is the address of the
block the object owns. -/
structure VecObj where
  items_ : Nat
  size_ : Nat
  capacity_ : Nat
  deriving DecidableEq, Repr

/-- The array an object stands for: its block read from the free store. -/
def VecObj.deref (heap : List (List α)) (o : VecObj) : Except Fault (SimpleVector α) :=
  match heap[o.items_]? with
  | some block => .ok { items_ := block, size_ := o.size_, capacity_ := o.capacity_ }
  | none => .error .undefinedBehaviour

/-- Constructor `SimpleVector(const SimpleVector& other)` inside a free store: the
buffer made by `items_(other.size_)` is a new block, added at the end of the
store; the result is the store after the call and the new object. -/
def VecObj.copy [Element α] (heap : List (List α)) (other : VecObj) :
    Except Fault (List (List α) × VecObj) :=
  match VecObj.deref heap other with
  | .error e => .error e
  | .ok src =>
    match SimpleVector.copy src with
    | .error e => .error e
    | .ok w =>
      .ok (heap ++ [w.items_],
           { items_ := heap.length, size_ := w.size_, capacity_ := w.capacity_ })

/-! ## Predicates used in the statements -/

/-- Lexicographic comparison of two lists by the rule of `lexicographical_compare`,
as a function of the two live sequences alone. -/
def lexLess [LT α] [DecidableRel (fun (x y : α) => x < y)] : List α → List α → Bool
  | [], [] => false
  | [], _ :: _ => true
  | _ :: _, [] => false
  | x :: xs, y :: ys =>
    if x < y then true else if y < x then false else lexLess xs ys

/-- The ordering as the specification words it: the first sequence is a proper
prefix of the second, or at the first position where the two differ the element
of the first is less than the element of the second. -/
def LexLessSpec [LT α] (l1 l2 : List α) : Prop :=
  (l1.length < l2.length ∧ ∀ j : Nat, j < l1.length → l1[j]? = l2[j]?) ∨
  (∃ (i : Nat) (x y : α), l1[i]? = some x ∧ l2[i]? = some y ∧ x ≠ y ∧ x < y ∧
    ∀ j : Nat, j < i → l1[j]? = l2[j]?)

/-- Equality as the specification words it: same size and equal elements at every
position. -/
def ElementwiseEqual (l1 l2 : List α) : Prop :=
  l1.length = l2.length ∧ ∀ j : Nat, j < l1.length → l1[j]? = l2[j]?


/-- The capacity after `PushBack` as a function of the size and capacity before it:
the three cases of the code (`capacity_ = 1` for capacity 0, no change with
spare room, `capacity_ * 2` passed to `Resize` when full). -/
def pushCapacity (size capacity : Nat) : Nat :=
  if capacity = 0 then 1 else if size < capacity then capacity else capacity * 2

/-- The capacity is a power of two lying below twice the size (or the array is
still the empty one without a buffer). -/
def Doubled (v : SimpleVector α) : Prop :=
  (v.capacity_ = 0 ∧ v.size_ = 0) ∨ ∃ k, v.capacity_ = 2 ^ k ∧ v.capacity_ < 2 * v.size_

/-- States reachable from a constructor by the public operations, called within
their preconditions, copy assignment left out. -/
inductive ReachableWithoutAssign [Element α] : SimpleVector α → Prop
  | empty : ReachableWithoutAssign SimpleVector.empty
  | ofSize (n : Nat) (w : SimpleVector α) :
      SimpleVector.ofSize n = .ok w → ReachableWithoutAssign w
  | ofSizeValue (n : Nat) (x : α) (w : SimpleVector α) :
      SimpleVector.ofSizeValue n x = .ok w → ReachableWithoutAssign w
  | ofList (init : List α) (w : SimpleVector α) :
      SimpleVector.ofList init = .ok w → ReachableWithoutAssign w
  | ofReserve (n : Nat) (w : SimpleVector α) :
      SimpleVector.ofReserve n = .ok w → ReachableWithoutAssign w
  | copy (v w : SimpleVector α) :
      ReachableWithoutAssign v → v.copy = .ok w → ReachableWithoutAssign w
  | moveNew (v : SimpleVector α) :
      ReachableWithoutAssign v → ReachableWithoutAssign v.moveCtor.1
  | moveOld (v : SimpleVector α) :
      ReachableWithoutAssign v → ReachableWithoutAssign v.moveCtor.2
  | reserve (v w : SimpleVector α) (n : Nat) :
      ReachableWithoutAssign v → v.Reserve n = .ok w → ReachableWithoutAssign w
  | resize (v w : SimpleVector α) (n : Nat) :
      ReachableWithoutAssign v → v.Resize n = .ok w → ReachableWithoutAssign w
  | pushBack (v w : SimpleVector α) (item : ItemRef α) :
      ReachableWithoutAssign v → v.PushBack item = .ok w → ReachableWithoutAssign w
  | insert (v w : SimpleVector α) (pos it : Nat) (x : α) :
      ReachableWithoutAssign v → pos ≤ v.size_ → v.Insert pos x = .ok (w, it) →
      ReachableWithoutAssign w
  | popBack (v : SimpleVector α) :
      ReachableWithoutAssign v → ReachableWithoutAssign v.PopBack
  | erase (v w : SimpleVector α) (pos it : Nat) :
      ReachableWithoutAssign v → pos < v.size_ → v.Erase pos = .ok (w, it) →
      ReachableWithoutAssign w
  | clear (v : SimpleVector α) :
      ReachableWithoutAssign v → ReachableWithoutAssign v.Clear
  | swapThis (v u : SimpleVector α) :
      ReachableWithoutAssign v → ReachableWithoutAssign u → ReachableWithoutAssign (v.swap u).1
  | swapOther (v u : SimpleVector α) :
      ReachableWithoutAssign v → ReachableWithoutAssign u → ReachableWithoutAssign (v.swap u).2

/-! ## Slot accesses and the copy loops -/

theorem load_ok (buf : List α) (i : Nat) (h : i < buf.length) :
    load buf i = .ok (buf.get ⟨i, h⟩) := by
  simp [load, List.getElem?_eq_getElem h]

theorem store_ok (buf : List α) (i : Nat) (x : α) (h : i < buf.length) :
    store buf i x = .ok (buf.set i x) := by
  simp [store, h]

theorem copyLoop_ok (src : List α) (k : Nat) : ∀ (first : Nat) (dst : List α) (d : Nat),
    first + k ≤ src.length → d + k ≤ dst.length →
    ∃ r, copyLoop src first dst d k = .ok r ∧ r.length = dst.length ∧
      ∀ j, r[j]? = if d ≤ j ∧ j < d + k then src[first + (j - d)]? else dst[j]? := by
  induction k with
  | zero =>
    intro first dst d _ _
    refine ⟨dst, rfl, rfl, ?_⟩
    intro j
    rw [if_neg (by omega)]
  | succ k ih =>
    intro first dst d hs hd
    have h1 : first < src.length := by omega
    have h2 : d < dst.length := by omega
    obtain ⟨r, hr, hlen, hget⟩ := ih (first + 1) (dst.set d (src.get ⟨first, h1⟩)) (d + 1)
      (by omega) (by simp; omega)
    refine ⟨r, ?_, by simpa using hlen, ?_⟩
    · simp only [copyLoop, load_ok src first h1, store_ok dst d _ h2]
      exact hr
    · intro j
      rw [hget j]
      by_cases hj : d + 1 ≤ j ∧ j < d + 1 + k
      · have hj2 : d ≤ j ∧ j < d + (k + 1) := by omega
        have e : first + 1 + (j - (d + 1)) = first + (j - d) := by omega
        simp [hj, hj2, e]
      · by_cases hjd : j = d
        · subst hjd
          have hj2 : j ≤ j ∧ j < j + (k + 1) := by omega
          simp [hj2, List.getElem?_set, h2, List.getElem?_eq_getElem h1]
        · have hj2 : ¬ (d ≤ j ∧ j < d + (k + 1)) := by omega
          have hne : d ≠ j := fun h => hjd h.symm
          simp [hj, hj2, List.getElem?_set, hne]

theorem copyRange_ok (src : List α) (n : Nat) (dst : List α) (hs : n ≤ src.length)
    (hd : n ≤ dst.length) :
    ∃ r, copyRange src 0 n dst 0 = .ok r ∧ r.length = dst.length ∧
      ∀ j, r[j]? = if j < n then src[j]? else dst[j]? := by
  obtain ⟨r, hr, hlen, hget⟩ := copyLoop_ok src n 0 dst 0 (by omega) (by omega)
  refine ⟨r, by simpa [copyRange] using hr, hlen, ?_⟩
  intro j
  rw [hget j]
  simp

theorem moveBackwardLoop_ok (src : List α) (k : Nat) : ∀ (last : Nat) (dst : List α) (dLast : Nat),
    k ≤ last → last ≤ src.length → k ≤ dLast → dLast ≤ dst.length →
    ∃ r, moveBackwardLoop src last dst dLast k = .ok r ∧ r.length = dst.length ∧
      ∀ j, r[j]? = if dLast - k ≤ j ∧ j < dLast then src[last - (dLast - j)]? else dst[j]? := by
  induction k with
  | zero =>
    intro last dst dLast _ _ _ _
    refine ⟨dst, rfl, rfl, ?_⟩
    intro j
    rw [if_neg (by omega)]
  | succ k ih =>
    intro last dst dLast h1 h2 h3 h4
    have hl : last - 1 < src.length := by omega
    have hd : dLast - 1 < dst.length := by omega
    obtain ⟨r, hr, hlen, hget⟩ := ih (last - 1) (dst.set (dLast - 1) (src.get ⟨last - 1, hl⟩))
      (dLast - 1) (by omega) (by omega) (by omega) (by simp; omega)
    refine ⟨r, ?_, by simpa using hlen, ?_⟩
    · have hz : ¬ (last = 0 ∨ dLast = 0) := by omega
      simp only [moveBackwardLoop, if_neg hz, load_ok src (last - 1) hl,
        store_ok dst (dLast - 1) _ hd]
      exact hr
    · intro j
      rw [hget j]
      by_cases hj : dLast - 1 - k ≤ j ∧ j < dLast - 1
      · have hj2 : dLast - (k + 1) ≤ j ∧ j < dLast := by omega
        have e : last - 1 - (dLast - 1 - j) = last - (dLast - j) := by omega
        rw [if_pos hj, if_pos hj2, e]
      · by_cases hjd : j = dLast - 1
        · have hj2 : dLast - (k + 1) ≤ j ∧ j < dLast := by omega
          have e : last - (dLast - j) = last - 1 := by omega
          have hjl : j < dst.length := by omega
          simp only [if_neg hj, if_pos hj2, e]
          subst hjd
          simp [List.getElem?_set, hd, List.getElem?_eq_getElem hl]
        · have hj2 : ¬ (dLast - (k + 1) ≤ j ∧ j < dLast) := by omega
          have hne : dLast - 1 ≠ j := fun h => hjd h.symm
          rw [if_neg hj, if_neg hj2, List.getElem?_set_ne hne]

theorem moveBackward_ok (src : List α) (first last : Nat) (dst : List α)
    (h1 : first ≤ last) (h2 : last ≤ src.length) (h3 : last + 1 ≤ dst.length) :
    ∃ r, moveBackward src first last dst (last + 1) = .ok r ∧ r.length = dst.length ∧
      ∀ j, r[j]? = if first + 1 ≤ j ∧ j < last + 1 then src[j - 1]? else dst[j]? := by
  obtain ⟨r, hr, hlen, hget⟩ := moveBackwardLoop_ok src (last - first) last dst (last + 1)
    (by omega) h2 (by omega) h3
  refine ⟨r, by simpa [moveBackward, h1] using hr, hlen, ?_⟩
  intro j
  rw [hget j]
  by_cases hj : first + 1 ≤ j ∧ j < last + 1
  · have hj2 : last + 1 - (last - first) ≤ j ∧ j < last + 1 := by omega
    have e : last - (last + 1 - j) = j - 1 := by omega
    simp only [if_pos hj, if_pos hj2, e]
  · have hj2 : ¬ (last + 1 - (last - first) ≤ j ∧ j < last + 1) := by omega
    simp only [if_neg hj, if_neg hj2]

theorem moveWithinLoop_ok (k : Nat) : ∀ (buf : List α) (d : Nat),
    d + 1 + k ≤ buf.length →
    ∃ r, moveWithinLoop buf (d + 1) d k = .ok r ∧ r.length = buf.length ∧
      ∀ j, r[j]? = if d ≤ j ∧ j < d + k then buf[j + 1]? else buf[j]? := by
  induction k with
  | zero =>
    intro buf d _
    refine ⟨buf, rfl, rfl, ?_⟩
    intro j
    rw [if_neg (by omega)]
  | succ k ih =>
    intro buf d h
    have h1 : d + 1 < buf.length := by omega
    have h2 : d < buf.length := by omega
    obtain ⟨r, hr, hlen, hget⟩ := ih (buf.set d (buf.get ⟨d + 1, h1⟩)) (d + 1)
      (by simp; omega)
    refine ⟨r, ?_, by simpa using hlen, ?_⟩
    · simp only [moveWithinLoop, load_ok buf (d + 1) h1, store_ok buf d _ h2]
      exact hr
    · intro j
      rw [hget j]
      by_cases hj : d + 1 ≤ j ∧ j < d + 1 + k
      · have hj2 : d ≤ j ∧ j < d + (k + 1) := by omega
        have hne : d ≠ j + 1 := by omega
        simp [hj, hj2, List.getElem?_set, hne]
      · by_cases hjd : j = d
        · subst hjd
          have hj2 : j ≤ j ∧ j < j + (k + 1) := by omega
          simp [hj2, List.getElem?_set, h2, List.getElem?_eq_getElem h1]
        · have hj2 : ¬ (d ≤ j ∧ j < d + (k + 1)) := by omega
          have hne : d ≠ j := fun h => hjd h.symm
          simp [hj, hj2, List.getElem?_set, hne]

theorem fillLoop_ok (x : α) (k : Nat) : ∀ (buf : List α) (i : Nat),
    i + k ≤ buf.length →
    ∃ r, fillLoop buf i x k = .ok r ∧ r.length = buf.length ∧
      ∀ j, r[j]? = if i ≤ j ∧ j < i + k then some x else buf[j]? := by
  induction k with
  | zero =>
    intro buf i _
    refine ⟨buf, rfl, rfl, ?_⟩
    intro j
    rw [if_neg (by omega)]
  | succ k ih =>
    intro buf i h
    have h2 : i < buf.length := by omega
    obtain ⟨r, hr, hlen, hget⟩ := ih (buf.set i x) (i + 1) (by simp; omega)
    refine ⟨r, ?_, by simpa using hlen, ?_⟩
    · simp only [fillLoop, store_ok buf i _ h2]
      exact hr
    · intro j
      rw [hget j]
      by_cases hj : i + 1 ≤ j ∧ j < i + 1 + k
      · have hj2 : i ≤ j ∧ j < i + (k + 1) := by omega
        simp [hj, hj2]
      · by_cases hjd : j = i
        · subst hjd
          have hj2 : j ≤ j ∧ j < j + (k + 1) := by omega
          simp [hj2, List.getElem?_set, h2]
        · have hj2 : ¬ (i ≤ j ∧ j < i + (k + 1)) := by omega
          have hne : i ≠ j := fun h => hjd h.symm
          simp [hj, hj2, List.getElem?_set, hne]

theorem alloc_length [Element α] (n : Nat) : (ArrayPtr.alloc n : List α).length = n := by
  simp [ArrayPtr.alloc]

theorem alloc_getElem? [Element α] (n j : Nat) :
    (ArrayPtr.alloc n : List α)[j]? = if j < n then some (Element.raw j) else none := by
  unfold ArrayPtr.alloc
  by_cases h : j < n
  · simp [h, List.getElem?_range]
  · rw [if_neg h]
    apply List.getElem?_eq_none
    simp only [List.length_map, List.length_range]
    omega

theorem readItem_object (x : α) (entry : List α) (released : Bool) :
    readItem (.object x) entry released = .ok x := rfl

/-! ## The operations on states whose live elements lie inside the buffer -/

theorem live_getElem? (v : SimpleVector α) (j : Nat) :
    v.live[j]? = if j < v.size_ then v.items_[j]? else none := by
  simp [SimpleVector.live, List.getElem?_take]

theorem live_length (v : SimpleVector α) (h : v.size_ ≤ v.items_.length) :
    v.live.length = v.size_ := by
  simp [SimpleVector.live, h]

theorem Resize_shrink [Element α] (v : SimpleVector α) (n : Nat) (h : n ≤ v.size_) :
    v.Resize n = .ok { v with size_ := n } := by
  simp [SimpleVector.Resize, h]

theorem Resize_grow_ok [Element α] (v : SimpleVector α) (n : Nat) (hn : v.size_ < n)
    (hl : v.size_ ≤ v.items_.length) :
    ∃ w, v.Resize n = .ok w ∧ w.size_ = max n (v.capacity_ * 2) ∧
      w.capacity_ = max n (v.capacity_ * 2) ∧ w.items_.length = max n (v.capacity_ * 2) ∧
      ∀ j, w.items_[j]? = if j < v.size_ then v.items_[j]?
        else if j < max n (v.capacity_ * 2) then some default else none := by
  have hm : v.size_ ≤ max n (v.capacity_ * 2) := by omega
  obtain ⟨r1, hr1, hlen1, hget1⟩ := copyRange_ok v.items_ v.size_
    (ArrayPtr.alloc (max n (v.capacity_ * 2)) : List α) hl (by rw [alloc_length]; exact hm)
  rw [alloc_length] at hlen1
  obtain ⟨r2, hr2, hlen2, hget2⟩ := fillLoop_ok (default : α)
    (max n (v.capacity_ * 2) - v.size_) r1 v.size_ (by omega)
  refine ⟨{ items_ := r2, size_ := max n (v.capacity_ * 2),
            capacity_ := max n (v.capacity_ * 2) }, ?_, rfl, rfl, by simp [hlen2, hlen1], ?_⟩
  · have hnn : ¬ n ≤ v.size_ := by omega
    simp only [SimpleVector.Resize, if_neg hnn, hr1, hr2]
  · intro j
    simp only []
    rw [hget2 j, hget1 j, alloc_getElem?]
    by_cases h1 : j < v.size_
    · have h2 : ¬ (v.size_ ≤ j ∧ j < v.size_ + (max n (v.capacity_ * 2) - v.size_)) := by omega
      simp only [if_neg h2, if_pos h1]
    · by_cases h3 : j < max n (v.capacity_ * 2)
      · have h2 : v.size_ ≤ j ∧ j < v.size_ + (max n (v.capacity_ * 2) - v.size_) := by omega
        simp only [if_pos h2, if_neg h1, if_pos h3]
      · have h2 : ¬ (v.size_ ≤ j ∧ j < v.size_ + (max n (v.capacity_ * 2) - v.size_)) := by omega
        simp only [if_neg h2, if_neg h1, if_neg h3]

theorem PushBack_ok [Element α] (v : SimpleVector α) (x : α)
    (hsc : v.size_ ≤ v.capacity_) (hcl : v.capacity_ ≤ v.items_.length) :
    ∃ w, v.PushBack (.object x) = .ok w ∧ w.size_ = v.size_ + 1 ∧
      w.capacity_ = pushCapacity v.size_ v.capacity_ ∧
      w.capacity_ ≤ w.items_.length ∧ w.live = v.live ++ [x] := by
  by_cases hc0 : v.capacity_ = 0
  · -- a one-slot buffer is set up first, then the value is written into it
    have hs0 : v.size_ = 0 := by omega
    refine ⟨{ items_ := [x], size_ := 1, capacity_ := 1 }, ?_, by simp [hs0], ?_, by simp, ?_⟩
    · simp [SimpleVector.PushBack, hc0, hs0, store, ArrayPtr.alloc, readItem, List.range_succ]
    · simp [pushCapacity, hc0]
    · simp [SimpleVector.live, hs0]
  · by_cases hlt : v.size_ < v.capacity_
    · -- spare room: one store, no reallocation
      have hsl : v.size_ < v.items_.length := by omega
      refine ⟨{ v with items_ := v.items_.set v.size_ x, size_ := v.size_ + 1 },
        ?_, rfl, ?_, by simpa using hcl, ?_⟩
      · simp [SimpleVector.PushBack, hc0, hlt, store, hsl, readItem]
      · simp [pushCapacity, hc0, hlt]
      · apply List.ext_getElem?
        intro j
        rw [live_getElem?]
        simp only []
        by_cases hj : j < v.size_
        · have hne : v.size_ ≠ j := by omega
          have hjl : j < v.live.length := by rw [live_length v (by omega)]; exact hj
          rw [if_pos (by omega), List.getElem?_set_ne hne, List.getElem?_append_left hjl,
            live_getElem?, if_pos hj]
        · by_cases hje : j = v.size_
          · subst hje
            have hll : v.live.length ≤ v.size_ := by rw [live_length v (by omega)]
            rw [if_pos (by omega), List.getElem?_set_self hsl,
              List.getElem?_append_right hll, live_length v (by omega)]
            simp
          · have hll : v.live.length ≤ j := by rw [live_length v (by omega)]; omega
            rw [if_neg (by omega), List.getElem?_append_right hll, live_length v (by omega)]
            have : 1 ≤ j - v.size_ := by omega
            simp [List.getElem?_eq_none, this]
    · -- full: `Resize` to twice the capacity, then the store
      have hse : v.size_ = v.capacity_ := by omega
      obtain ⟨w, hw, hws, hwc, hwl, hwg⟩ := Resize_grow_ok v (v.capacity_ * 2) (by omega) (by omega)
      have hmax : max (v.capacity_ * 2) (v.capacity_ * 2) = v.capacity_ * 2 := by simp
      rw [hmax] at hws hwc hwl hwg
      have hsl : v.size_ < w.items_.length := by omega
      refine ⟨{ w with size_ := v.size_ + 1, items_ := w.items_.set v.size_ x },
        ?_, rfl, ?_, by simp; omega, ?_⟩
      · simp [SimpleVector.PushBack, hc0, hlt, hw, store, hsl, readItem]
      · simp [pushCapacity, hc0, hlt, hwc]
      · apply List.ext_getElem?
        intro j
        rw [live_getElem?]
        simp only []
        by_cases hj : j < v.size_
        · have hne : v.size_ ≠ j := by omega
          have hjl : j < v.live.length := by rw [live_length v (by omega)]; exact hj
          rw [if_pos (by omega), List.getElem?_set_ne hne, List.getElem?_append_left hjl,
            live_getElem?, if_pos hj, hwg j, if_pos hj]
        · by_cases hje : j = v.size_
          · subst hje
            have hll : v.live.length ≤ v.size_ := by rw [live_length v (by omega)]
            rw [if_pos (by omega), List.getElem?_set_self hsl,
              List.getElem?_append_right hll, live_length v (by omega)]
            simp
          · have hll : v.live.length ≤ j := by rw [live_length v (by omega)]; omega
            rw [if_neg (by omega), List.getElem?_append_right hll, live_length v (by omega)]
            have : 1 ≤ j - v.size_ := by omega
            simp [List.getElem?_eq_none, this]

theorem pushCapacity_gt (size capacity : Nat) (h : size ≤ capacity) :
    size + 1 ≤ pushCapacity size capacity := by
  unfold pushCapacity
  split_ifs <;> omega

theorem pushCapacity_doubled (size capacity : Nat) (h : size ≤ capacity)
    (hd : (capacity = 0 ∧ size = 0) ∨ ∃ k, capacity = 2 ^ k ∧ capacity < 2 * size) :
    ∃ k, pushCapacity size capacity = 2 ^ k ∧ pushCapacity size capacity < 2 * (size + 1) := by
  unfold pushCapacity
  rcases hd with ⟨hc, _⟩ | ⟨k, hk, hlt⟩
  · exact ⟨0, by simp [hc], by rw [if_pos hc]; omega⟩
  · have hpos : 0 < capacity := by rw [hk]; exact pow_pos (by norm_num) k
    by_cases hs : size < capacity
    · refine ⟨k, ?_, ?_⟩
      · rw [if_neg (by omega), if_pos hs]; exact hk
      · rw [if_neg (by omega), if_pos hs]; omega
    · refine ⟨k + 1, ?_, ?_⟩
      · rw [if_neg (by omega), if_neg hs, hk, pow_succ]
      · rw [if_neg (by omega), if_neg hs]; omega

theorem pushAll_ok [Element α] (xs : List α) : ∀ (v : SimpleVector α),
    v.size_ ≤ v.capacity_ → v.capacity_ ≤ v.items_.length → Doubled v →
    ∃ w, v.pushAll (xs.map ItemRef.object) = .ok w ∧ w.size_ = v.size_ + xs.length ∧
      w.size_ ≤ w.capacity_ ∧
      w.capacity_ ≤ w.items_.length ∧ w.live = v.live ++ xs ∧ Doubled w := by
  induction xs with
  | nil =>
    intro v h1 h2 h3
    exact ⟨v, rfl, rfl, h1, h2, by simp, h3⟩
  | cons x xs ih =>
    intro v h1 h2 h3
    obtain ⟨u, hu, hus, huc, hul, hulive⟩ := PushBack_ok v x h1 h2
    have hgt := pushCapacity_gt v.size_ v.capacity_ h1
    have hdu : Doubled u := by
      obtain ⟨k, hk1, hk2⟩ := pushCapacity_doubled v.size_ v.capacity_ h1 h3
      exact Or.inr ⟨k, by rw [huc]; exact hk1, by rw [huc, hus]; exact hk2⟩
    obtain ⟨w, hw, hws, hwc, hwl, hwlive, hwd⟩ := ih u (by omega) hul hdu
    refine ⟨w, ?_, ?_, hwc, hwl, ?_, hwd⟩
    · simp only [List.map_cons, SimpleVector.pushAll, hu]
      exact hw
    · rw [hws, hus, List.length_cons]; omega
    · rw [hwlive, hulive]; simp

theorem insert_getElem? (l : List α) (i : Nat) (x : α) (hi : i ≤ l.length) (j : Nat) :
    (l.take i ++ x :: l.drop i)[j]? =
      if j < i then l[j]? else if j = i then some x else l[j - 1]? := by
  have hlen : (l.take i).length = i := by simp [hi]
  by_cases h1 : j < i
  · rw [if_pos h1, List.getElem?_append_left (by rw [hlen]; exact h1),
      List.getElem?_take_of_lt h1]
  · rw [if_neg h1, List.getElem?_append_right (by rw [hlen]; omega), hlen]
    by_cases h2 : j = i
    · subst h2
      simp
    · rw [if_neg h2]
      obtain ⟨m, hm⟩ : ∃ m, j - i = m + 1 := ⟨j - i - 1, by omega⟩
      rw [hm, List.getElem?_cons_succ, List.getElem?_drop]
      have e : i + m = j - 1 := by omega
      rw [e]

theorem Insert_ok [Element α] (v : SimpleVector α) (i : Nat) (x : α)
    (hsc : v.size_ ≤ v.capacity_) (hl : v.size_ ≤ v.items_.length) (hi : i ≤ v.size_) :
    ∃ w, v.Insert i x = .ok (w, i) ∧ w.size_ = v.size_ + 1 ∧
      w.capacity_ = (if v.size_ < v.capacity_ then v.capacity_
        else if v.capacity_ = 0 then 1 else v.capacity_ * 2) ∧
      w.items_.length = (if v.size_ < v.capacity_ then v.size_ + 1
        else if v.capacity_ = 0 then 1 else v.capacity_ * 2) ∧
      w.live = v.live.take i ++ x :: v.live.drop i := by
  generalize hns : (if v.size_ < v.capacity_ then v.size_ + 1
        else if v.capacity_ = 0 then 1 else v.capacity_ * 2) = ns
  have hge : v.size_ + 1 ≤ ns := by
    rw [← hns]; split_ifs <;> omega
  obtain ⟨r1, hr1, hlen1, hget1⟩ := copyRange_ok v.items_ i (ArrayPtr.alloc ns : List α)
    (by omega) (by rw [alloc_length]; omega)
  rw [alloc_length] at hlen1
  have hst : store r1 i x = .ok (r1.set i x) := store_ok r1 i x (by omega)
  obtain ⟨r3, hr3, hlen3, hget3⟩ := moveBackward_ok v.items_ i v.size_ (r1.set i x) hi hl
    (by simp; omega)
  refine ⟨{ items_ := r3, size_ := v.size_ + 1,
            capacity_ := if v.size_ < v.capacity_ then v.capacity_ else ns }, ?_, rfl, ?_, ?_, ?_⟩
  · simp only [SimpleVector.Insert, hns, hr1, hst, hr3]
  · simp only []
    rw [← hns]
    split_ifs <;> rfl
  · simp [hlen3, hlen1]
  · apply List.ext_getElem?
    intro j
    have hll : i ≤ v.live.length := by rw [live_length v hl]; exact hi
    rw [live_getElem?, insert_getElem? v.live i x hll j]
    simp only []
    rw [hget3 j]
    by_cases h1 : j < i
    · have h2 : ¬ (i + 1 ≤ j ∧ j < v.size_ + 1) := by omega
      have hne : i ≠ j := by omega
      rw [if_pos (by omega), if_neg h2, List.getElem?_set_ne hne, hget1 j, if_pos h1, if_pos h1,
        live_getElem?, if_pos (by omega)]
    · rw [if_neg h1]
      by_cases h2 : j = i
      · subst h2
        have h3 : ¬ (j + 1 ≤ j ∧ j < v.size_ + 1) := by omega
        rw [if_pos (by omega), if_neg h3, if_pos rfl, List.getElem?_set_self (by omega)]
      · rw [if_neg h2]
        by_cases h4 : j < v.size_ + 1
        · have h3 : i + 1 ≤ j ∧ j < v.size_ + 1 := by omega
          rw [if_pos h4, if_pos h3, live_getElem?, if_pos (by omega)]
        · rw [if_neg h4, live_getElem?, if_neg (by omega)]

theorem Erase_ok (v : SimpleVector α) (i : Nat)
    (hl : v.size_ ≤ v.items_.length) (hi : i < v.size_) :
    ∃ w, v.Erase i = .ok (w, i) ∧ w.size_ = v.size_ - 1 ∧ w.capacity_ = v.capacity_ ∧
      w.items_.length = v.items_.length ∧ w.live = v.live.eraseIdx i := by
  obtain ⟨r, hr, hlen, hget⟩ := moveWithinLoop_ok (v.size_ - (i + 1)) v.items_ i (by omega)
  refine ⟨{ v with items_ := r, size_ := v.size_ - 1 }, ?_, rfl, rfl, hlen, ?_⟩
  · have h1 : i + 1 ≤ v.size_ := hi
    simp only [SimpleVector.Erase, moveWithin, if_pos h1, hr]
  · apply List.ext_getElem?
    intro j
    rw [live_getElem?, List.getElem?_eraseIdx]
    simp only []
    rw [hget j]
    by_cases h1 : j < i
    · have h2 : ¬ (i ≤ j ∧ j < i + (v.size_ - (i + 1))) := by omega
      rw [if_pos (by omega), if_neg h2, if_pos h1, live_getElem?, if_pos (by omega)]
    · rw [if_neg h1, live_getElem?]
      by_cases h3 : j < v.size_ - 1
      · have h2 : i ≤ j ∧ j < i + (v.size_ - (i + 1)) := by omega
        rw [if_pos h3, if_pos h2, if_pos (by omega)]
      · rw [if_neg h3, if_neg (by omega)]

theorem copy_ok [Element α] (other : SimpleVector α) (hl : other.size_ ≤ other.items_.length) :
    ∃ w, other.copy = .ok w ∧ w.size_ = other.size_ ∧ w.capacity_ = other.size_ ∧
      w.items_.length = other.size_ ∧ w.live = other.live := by
  obtain ⟨r, hr, hlen, hget⟩ := copyRange_ok other.items_ other.size_
    (ArrayPtr.alloc other.size_ : List α) hl (by rw [alloc_length])
  rw [alloc_length] at hlen
  refine ⟨{ items_ := r, size_ := other.size_, capacity_ := other.size_ }, ?_, rfl, rfl, hlen, ?_⟩
  · simp only [SimpleVector.copy, hr]
  · apply List.ext_getElem?
    intro j
    rw [live_getElem?, live_getElem?]
    simp only []
    by_cases hj : j < other.size_
    · rw [if_pos hj, if_pos hj, hget j, if_pos hj]
    · rw [if_neg hj, if_neg hj]

theorem assign_ok [Element α] (v rhs : SimpleVector α) (hl : rhs.size_ ≤ rhs.items_.length) :
    ∃ w, v.assign rhs = .ok w ∧ w.size_ = rhs.size_ ∧ w.live = rhs.live ∧
      w.items_.length = rhs.size_ ∧ w.capacity_ = v.size_ := by
  obtain ⟨t, ht, hts, _, htl, htlive⟩ := copy_ok rhs hl
  refine ⟨{ items_ := t.items_, size_ := t.size_, capacity_ := v.size_ }, ?_, hts, ?_, htl, rfl⟩
  · simp only [SimpleVector.assign, ht]
  · rw [← htlive]
    rfl

/-! ## The invariant `size ≤ capacity` along the operations other than copy assignment -/

theorem Resize_counters [Element α] (v w : SimpleVector α) (n : Nat) (h : v.Resize n = .ok w) :
    (n ≤ v.size_ → w.size_ = n ∧ w.capacity_ = v.capacity_) ∧
    (v.size_ < n → w.size_ = max n (v.capacity_ * 2) ∧ w.capacity_ = max n (v.capacity_ * 2)) := by
  unfold SimpleVector.Resize at h
  split_ifs at h with hn
  · injection h with h
    subst h
    exact ⟨fun _ => ⟨rfl, rfl⟩, fun h2 => by omega⟩
  · refine ⟨fun h2 => absurd h2 hn, fun _ => ?_⟩
    simp only [] at h
    split at h
    · cases h
    · split at h
      · cases h
      · injection h with h
        subst h
        exact ⟨rfl, rfl⟩

theorem PushBack_counters [Element α] (v w : SimpleVector α) (item : ItemRef α)
    (hinv : v.size_ ≤ v.capacity_) (h : v.PushBack item = .ok w) :
    w.size_ = v.size_ + 1 ∧ w.capacity_ = pushCapacity v.size_ v.capacity_ := by
  unfold SimpleVector.PushBack at h
  simp only [] at h
  unfold pushCapacity
  by_cases hc : v.capacity_ = 0
  · have hs : v.size_ = 0 := by omega
    simp only [if_pos hc, hs] at h
    simp at h
    split at h
    · cases h
    · split at h
      · cases h
      · injection h with h
        subst h
        simp [hc, hs]
  · simp only [if_neg hc] at h
    split_ifs at h with hlt
    · split at h
      · cases h
      · split at h
        · cases h
        · injection h with h
          subst h
          simp only []
          rw [if_neg hc, if_pos hlt]
          constructor <;> trivial
    · split at h
      · cases h
      · rename_i v2 hv2
        have hc2 := (Resize_counters v v2 _ hv2).2 (by omega)
        split at h
        · cases h
        · split at h
          · cases h
          · injection h with h
            subst h
            simp only []
            rw [hc2.2, if_neg hc, if_neg hlt]
            simp

theorem PushBack_invariant [Element α] (v w : SimpleVector α) (item : ItemRef α)
    (hinv : v.size_ ≤ v.capacity_) (h : v.PushBack item = .ok w) : w.size_ ≤ w.capacity_ := by
  obtain ⟨hs, hc⟩ := PushBack_counters v w item hinv h
  have := pushCapacity_gt v.size_ v.capacity_ hinv
  omega

theorem PushBack_capacity [Element α] (v w : SimpleVector α) (item : ItemRef α)
    (hinv : v.size_ ≤ v.capacity_) (h : v.PushBack item = .ok w) :
    w.capacity_ = pushCapacity v.size_ v.capacity_ :=
  (PushBack_counters v w item hinv h).2

theorem reachable_size_le_capacity [Element α] (v : SimpleVector α)
    (h : ReachableWithoutAssign v) : v.GetSize ≤ v.GetCapacity := by
  unfold SimpleVector.GetSize SimpleVector.GetCapacity
  induction h with
  | empty => simp [SimpleVector.empty]
  | ofSize n w hw =>
    unfold SimpleVector.ofSize at hw
    split at hw
    · cases hw
    · injection hw with hw; subst hw; exact le_refl _
  | ofSizeValue n x w hw =>
    unfold SimpleVector.ofSizeValue at hw
    split at hw
    · cases hw
    · injection hw with hw; subst hw; exact le_refl _
  | ofList init w hw =>
    unfold SimpleVector.ofList at hw
    split at hw
    · cases hw
    · injection hw with hw; subst hw; exact le_refl _
  | ofReserve n w hw =>
    unfold SimpleVector.ofReserve SimpleVector.Reserve at hw
    split_ifs at hw
    · split at hw
      · cases hw
      · injection hw with hw; subst hw; simp [SimpleVector.empty]
    · injection hw with hw; subst hw; simp [SimpleVector.empty]
  | copy v w _ hw _ =>
    unfold SimpleVector.copy at hw
    split at hw
    · cases hw
    · injection hw with hw; subst hw; exact le_refl _
  | moveNew v _ ih => exact ih
  | moveOld v _ _ => simp [SimpleVector.moveCtor]
  | reserve v w n _ hw ih =>
    unfold SimpleVector.Reserve at hw
    split_ifs at hw with hn
    · split at hw
      · cases hw
      · injection hw with hw; subst hw; simp only []; omega
    · injection hw with hw; subst hw; exact ih
  | resize v w n _ hw ih =>
    have hc := Resize_counters v w n hw
    by_cases hn : n ≤ v.size_
    · have := hc.1 hn; omega
    · have := hc.2 (by omega); omega
  | pushBack v w x _ hw ih => exact PushBack_invariant v w x ih hw
  | insert v w pos it x _ _ hw ih =>
    unfold SimpleVector.Insert at hw
    simp only [] at hw
    split at hw
    · cases hw
    · split at hw
      · cases hw
      · split at hw
        · cases hw
        · injection hw with hw
          injection hw with hw1 hw2
          subst hw1
          simp only []
          split_ifs <;> omega
  | popBack v _ ih =>
    unfold SimpleVector.PopBack
    split_ifs
    · simp only []; omega
    · exact ih
  | erase v w pos it _ _ hw ih =>
    unfold SimpleVector.Erase at hw
    simp only [] at hw
    split at hw
    · cases hw
    · injection hw with hw
      injection hw with hw1 hw2
      subst hw1
      simp only []
      omega
  | clear v _ _ => simp [SimpleVector.Clear]
  | swapThis v u _ _ _ ihu => exact ihu
  | swapOther v u _ _ ihv _ => exact ihv
/-! ## The comparison operators -/

theorem drop_take_succ (b : List α) (f n : Nat) (h : f < b.length) :
    (b.drop f).take (n + 1) = b.get ⟨f, h⟩ :: (b.drop (f + 1)).take n := by
  rw [List.drop_eq_getElem_cons h, List.take_succ_cons]
  rfl

theorem lexCompareLoop_ok [LT α] [DecidableRel (fun (x y : α) => x < y)]
    (b1 b2 : List α) (last2 : Nat) (hl2 : last2 ≤ b2.length) (k : Nat) :
    ∀ (first1 first2 : Nat), first1 + k ≤ b1.length → first2 ≤ last2 →
      lexCompareLoop b1 first1 b2 first2 last2 k
        = .ok (lexLess ((b1.drop first1).take k) ((b2.drop first2).take (last2 - first2))) := by
  induction k with
  | zero =>
    intro first1 first2 _ h2
    by_cases he : first2 = last2
    · subst he
      simp [lexCompareLoop, lexLess]
    · obtain ⟨m, hm⟩ : ∃ m, last2 - first2 = m + 1 := ⟨last2 - first2 - 1, by omega⟩
      have hf2 : first2 < b2.length := by omega
      rw [hm, drop_take_succ b2 first2 m hf2]
      simp [lexCompareLoop, lexLess, he]
  | succ k ih =>
    intro first1 first2 h1 h2
    have hf1 : first1 < b1.length := by omega
    rw [drop_take_succ b1 first1 k hf1]
    by_cases he : first2 = last2
    · subst he
      simp [lexCompareLoop, lexLess]
    · obtain ⟨m, hm⟩ : ∃ m, last2 - first2 = m + 1 := ⟨last2 - first2 - 1, by omega⟩
      have hf2 : first2 < b2.length := by omega
      have hm2 : last2 - (first2 + 1) = m := by omega
      rw [hm, drop_take_succ b2 first2 m hf2]
      simp only [lexCompareLoop, if_neg he, load_ok b1 first1 hf1, load_ok b2 first2 hf2, lexLess]
      rw [ih (first1 + 1) (first2 + 1) (by omega) (by omega), hm2]
      split_ifs <;> rfl

theorem less_ok [LT α] [DecidableRel (fun (x y : α) => x < y)] (a b : SimpleVector α)
    (ha : a.size_ ≤ a.items_.length) (hb : b.size_ ≤ b.items_.length) :
    a.less b = .ok (lexLess a.live b.live) := by
  have h := lexCompareLoop_ok a.items_ b.items_ b.size_ hb a.size_ 0 0 (by omega) (by omega)
  simp only [List.drop_zero, Nat.sub_zero] at h
  simp only [SimpleVector.less, lexicographical_compare, SimpleVector.live]
  rw [if_pos ⟨Nat.zero_le _, Nat.zero_le _⟩]
  exact h

theorem greaterEq_of_less [LT α] [DecidableRel (fun (x y : α) => x < y)] (a b : SimpleVector α)
    (r : Bool) (h : a.less b = .ok r) : a.greaterEq b = .ok (!r) := by
  simp only [SimpleVector.greaterEq, h]

theorem greater_of_less [LT α] [DecidableRel (fun (x y : α) => x < y)] (a b : SimpleVector α)
    (r : Bool) (h : a.less b = .ok r) : a.greater b = .ok false := by
  simp only [SimpleVector.greater, h, greaterEq_of_less a b r h]
  cases r <;> rfl

theorem lessEq_of_less [LT α] [DecidableRel (fun (x y : α) => x < y)] (a b : SimpleVector α)
    (r : Bool) (h : a.less b = .ok r) : a.lessEq b = .ok true := by
  simp only [SimpleVector.lessEq, greater_of_less a b r h]
  rfl

theorem equal_of_less [LT α] [DecidableRel (fun (x y : α) => x < y)] (a b : SimpleVector α)
    (r : Bool) (h : a.less b = .ok r) : a.equal b = .ok (!r) := by
  simp only [SimpleVector.equal, greater_of_less a b r h, h]
  rfl

theorem notEqual_of_less [LT α] [DecidableRel (fun (x y : α) => x < y)] (a b : SimpleVector α)
    (r : Bool) (h : a.less b = .ok r) : a.notEqual b = .ok r := by
  simp only [SimpleVector.notEqual, greater_of_less a b r h, h]
  rfl

theorem lexLessSpec_cons_same [LT α] (x : α) (xs ys : List α) :
    LexLessSpec (x :: xs) (x :: ys) ↔ LexLessSpec xs ys := by
  constructor
  · rintro (⟨hlen, hpre⟩ | ⟨i, a, b, h1, h2, hne, hlt, hpre⟩)
    · left
      refine ⟨by simpa using hlen, ?_⟩
      intro j hj
      have := hpre (j + 1) (by simp; omega)
      simpa using this
    · cases i with
      | zero =>
        simp only [List.getElem?_cons_zero, Option.some.injEq] at h1 h2
        exact absurd (h1.symm.trans h2) hne
      | succ i =>
        right
        refine ⟨i, a, b, by simpa using h1, by simpa using h2, hne, hlt, ?_⟩
        intro j hj
        have := hpre (j + 1) (by omega)
        simpa using this
  · rintro (⟨hlen, hpre⟩ | ⟨i, a, b, h1, h2, hne, hlt, hpre⟩)
    · left
      refine ⟨by simpa using hlen, ?_⟩
      intro j hj
      cases j with
      | zero => simp
      | succ j =>
        simp only [List.getElem?_cons_succ]
        exact hpre j (by simpa using hj)
    · right
      refine ⟨i + 1, a, b, by simpa using h1, by simpa using h2, hne, hlt, ?_⟩
      intro j hj
      cases j with
      | zero => simp
      | succ j =>
        simp only [List.getElem?_cons_succ]
        exact hpre j (by omega)

theorem lexLess_iff_spec [LinearOrder α] (l1 : List α) :
    ∀ l2 : List α, lexLess l1 l2 = true ↔ LexLessSpec l1 l2 := by
  induction l1 with
  | nil =>
    intro l2
    cases l2 with
    | nil =>
      simp only [lexLess, Bool.false_eq_true, false_iff]
      rintro (⟨hlen, _⟩ | ⟨i, a, b, h1, _⟩)
      · simp at hlen
      · simp at h1
    | cons y ys =>
      simp only [lexLess, true_iff]
      left
      refine ⟨by simp, ?_⟩
      intro j hj
      simp at hj
  | cons x xs ih =>
    intro l2
    cases l2 with
    | nil =>
      simp only [lexLess, Bool.false_eq_true, false_iff]
      rintro (⟨hlen, _⟩ | ⟨i, a, b, _, h2, _⟩)
      · simp at hlen
      · simp at h2
    | cons y ys =>
      simp only [lexLess]
      by_cases hxy : x < y
      · simp only [if_pos hxy, true_iff]
        right
        exact ⟨0, x, y, by simp, by simp, ne_of_lt hxy, hxy, fun j hj => by omega⟩
      · by_cases hyx : y < x
        · simp only [if_neg hxy, if_pos hyx, Bool.false_eq_true, false_iff]
          rintro (⟨_, hpre⟩ | ⟨i, a, b, h1, h2, hne, hlt, hpre⟩)
          · have := hpre 0 (by simp)
            simp only [List.getElem?_cons_zero, Option.some.injEq] at this
            exact absurd hyx (by rw [this]; exact lt_irrefl y)
          · cases i with
            | zero =>
              simp only [List.getElem?_cons_zero, Option.some.injEq] at h1 h2
              rw [← h1, ← h2] at hlt
              exact hxy hlt
            | succ i =>
              have := hpre 0 (by omega)
              simp only [List.getElem?_cons_zero, Option.some.injEq] at this
              exact absurd hyx (by rw [this]; exact lt_irrefl y)
        · have hEq : x = y := le_antisymm (not_lt.mp hyx) (not_lt.mp hxy)
          subst hEq
          simp only [if_neg hxy]
          rw [ih ys, lexLessSpec_cons_same]

/-! ## Reservation, and round trips of `Insert` -/

theorem Reserve_ok [Element α] (v : SimpleVector α) (r : Nat)
    (hsc : v.size_ ≤ v.capacity_) (hl : v.size_ ≤ v.items_.length) :
    ∃ w, v.Reserve r = .ok w ∧ w.size_ = v.size_ ∧ w.live = v.live ∧
      w.capacity_ = (if r > v.capacity_ then r else v.capacity_) ∧
      (r > v.capacity_ → w.items_.length = r) := by
  by_cases hr : r > v.capacity_
  · obtain ⟨t, ht, hlen, hget⟩ := copyRange_ok v.items_ v.size_ (ArrayPtr.alloc r : List α) hl
      (by rw [alloc_length]; omega)
    rw [alloc_length] at hlen
    refine ⟨{ v with items_ := t, capacity_ := r }, ?_, rfl, ?_, ?_, fun _ => hlen⟩
    · simp only [SimpleVector.Reserve, if_pos hr, ht]
    · apply List.ext_getElem?
      intro j
      rw [live_getElem?, live_getElem?]
      simp only []
      by_cases hj : j < v.size_
      · rw [if_pos hj, if_pos hj, hget j, if_pos hj]
      · rw [if_neg hj, if_neg hj]
    · simp only [if_pos hr]
  · refine ⟨v, ?_, rfl, rfl, ?_, fun h => absurd h hr⟩
    · simp only [SimpleVector.Reserve, if_neg hr]
    · simp only [if_neg hr]

theorem ofReserve_ok [Element α] (r : Nat) :
    ∃ w, (SimpleVector.ofReserve r : Except Fault (SimpleVector α)) = .ok w ∧
      w.size_ = 0 ∧ w.capacity_ = r ∧ w.items_.length = r := by
  obtain ⟨w, hw, hs, _, hc, hlen⟩ := Reserve_ok (SimpleVector.empty : SimpleVector α) r
    (by simp [SimpleVector.empty]) (by simp [SimpleVector.empty])
  refine ⟨w, hw, by simpa [SimpleVector.empty] using hs, ?_, ?_⟩
  · by_cases hr : r > 0
    · have h0 : (SimpleVector.empty : SimpleVector α).capacity_ = 0 := rfl
      rw [hc, h0, if_pos hr]
    · have h0 : (SimpleVector.empty : SimpleVector α).capacity_ = 0 := rfl
      rw [hc, h0, if_neg hr]
      omega
  · by_cases hr : r > 0
    · exact hlen hr
    · have hr0 : r = 0 := by omega
      subst hr0
      have : w = (SimpleVector.empty : SimpleVector α) := by
        have h2 : (SimpleVector.empty : SimpleVector α).Reserve 0
            = .ok SimpleVector.empty := by
          simp [SimpleVector.Reserve, SimpleVector.empty]
        rw [h2] at hw
        injection hw with hw
        exact hw.symm
      rw [this]
      rfl

theorem insert_eraseIdx (l : List α) (i : Nat) (x : α) (hi : i ≤ l.length) :
    (l.take i ++ x :: l.drop i).eraseIdx i = l := by
  apply List.ext_getElem?
  intro j
  rw [List.getElem?_eraseIdx]
  by_cases hj : j < i
  · rw [if_pos hj, insert_getElem? l i x hi j, if_pos hj]
  · rw [if_neg hj, insert_getElem? l i x hi (j + 1), if_neg (by omega), if_neg (by omega)]
    simp

theorem insert_at_length (l : List α) (x : α) :
    l.take l.length ++ x :: l.drop l.length = l ++ [x] := by
  simp

/-! ## Copy construction inside a free store -/

theorem deref_append (heap extra : List (List α)) (o : VecObj) (src : SimpleVector α)
    (h : o.deref heap = .ok src) : o.deref (heap ++ extra) = .ok src := by
  unfold VecObj.deref at h ⊢
  cases hq : heap[o.items_]? with
  | none => rw [hq] at h; cases h
  | some blk =>
    have hlt : o.items_ < heap.length := by
      by_contra hcon
      rw [List.getElem?_eq_none (by omega)] at hq
      cases hq
    rw [List.getElem?_append_left hlt, hq]
    rw [hq] at h
    exact h

theorem deref_set_ne (heap : List (List α)) (o : VecObj) (p : Nat) (blk : List α)
    (hne : p ≠ o.items_) : o.deref (heap.set p blk) = o.deref heap := by
  unfold VecObj.deref
  rw [List.getElem?_set_ne hne]

theorem deref_lt (heap : List (List α)) (o : VecObj) (src : SimpleVector α)
    (h : o.deref heap = .ok src) : o.items_ < heap.length := by
  unfold VecObj.deref at h
  by_contra hcon
  rw [List.getElem?_eq_none (by omega)] at h
  cases h

/-! ## Runs of `PushBack` with arbitrary references -/

theorem pushAll_counters [Element α] (items : List (ItemRef α)) :
    ∀ (v w : SimpleVector α), v.size_ ≤ v.capacity_ → Doubled v → v.pushAll items = .ok w →
      w.size_ = v.size_ + items.length ∧ w.size_ ≤ w.capacity_ ∧ Doubled w := by
  induction items with
  | nil =>
    intro v w h1 h2 hw
    injection hw with hw
    subst hw
    exact ⟨rfl, h1, h2⟩
  | cons item items ih =>
    intro v w h1 h2 hw
    simp only [SimpleVector.pushAll] at hw
    split at hw
    · cases hw
    · rename_i u hu
      obtain ⟨hus, huc⟩ := PushBack_counters v u item h1 hu
      have hgt := pushCapacity_gt v.size_ v.capacity_ h1
      have hdu : Doubled u := by
        obtain ⟨k, hk1, hk2⟩ := pushCapacity_doubled v.size_ v.capacity_ h1 h2
        exact Or.inr ⟨k, by rw [huc]; exact hk1, by rw [huc, hus]; exact hk2⟩
      obtain ⟨hws, hwc, hwd⟩ := ih u w (by omega) hdu hw
      refine ⟨?_, hwc, hwd⟩
      rw [hws, hus, List.length_cons]
      omega

theorem doubled_least (c n : Nat) (hn : 0 < n) (hnc : n ≤ c)
    (hd : (c = 0 ∧ n = 0) ∨ ∃ k, c = 2 ^ k ∧ c < 2 * n) :
    ∃ k, c = 2 ^ k ∧ n ≤ 2 ^ k ∧ ∀ m, n ≤ 2 ^ m → 2 ^ k ≤ 2 ^ m := by
  rcases hd with ⟨_, h0⟩ | ⟨k, hk, hlt⟩
  · omega
  · refine ⟨k, hk, by omega, ?_⟩
    intro m hm
    by_contra hcon
    have hmk : m < k := by
      by_contra hge
      exact hcon (Nat.pow_le_pow_right (by norm_num) (by omega))
    have h2 : 2 ^ (m + 1) ≤ 2 ^ k := Nat.pow_le_pow_right (by norm_num) hmk
    rw [pow_succ] at h2
    omega

theorem PushBack_slot_spare [Element α] (v : SimpleVector α) (i : Nat)
    (hlt : v.size_ < v.capacity_) (hcl : v.capacity_ ≤ v.items_.length)
    (hi : i < v.items_.length) :
    ∃ w x, v.items_[i]? = some x ∧ v.PushBack (.slot i) = .ok w ∧
      w.size_ = v.size_ + 1 ∧ w.items_ = v.items_.set v.size_ x := by
  have hc0 : ¬ v.capacity_ = 0 := by omega
  have hsl : v.size_ < v.items_.length := by omega
  obtain ⟨x, hx⟩ : ∃ x, v.items_[i]? = some x := ⟨_, List.getElem?_eq_getElem hi⟩
  have hload : load v.items_ i = .ok x := by simp only [load, hx]
  refine ⟨{ v with items_ := v.items_.set v.size_ x, size_ := v.size_ + 1 }, x, hx, ?_, rfl, rfl⟩
  have hdec : decide (v.capacity_ = 0) = false := decide_eq_false hc0
  simp only [SimpleVector.PushBack, if_neg hc0, if_pos hlt, readItem, hdec,
    Bool.false_eq_true, if_false, hload, store_ok v.items_ v.size_ _ hsl]

theorem pushBack_sequence_of_objects [Element α] (xs : List α) :
    ∃ w, (SimpleVector.empty : SimpleVector α).pushAll (xs.map ItemRef.object) = .ok w ∧
      w.GetSize = xs.length ∧ xs.length ≤ w.GetCapacity ∧
      ∀ i : Fin xs.length, w.index i.val = .ok (xs.get i) := by
  obtain ⟨w, hw, hws, hwc, hwl, hwlive, _⟩ := pushAll_ok xs (SimpleVector.empty : SimpleVector α)
    (by simp [SimpleVector.empty]) (by simp [SimpleVector.empty])
    (Or.inl ⟨rfl, rfl⟩)
  have hsz : w.size_ = xs.length := by simpa [SimpleVector.empty] using hws
  have hlive : w.live = xs := by simpa [SimpleVector.empty, SimpleVector.live] using hwlive
  refine ⟨w, hw, hsz, by simp only [SimpleVector.GetCapacity]; omega, ?_⟩
  intro i
  have hi : i.val < w.size_ := by rw [hsz]; exact i.isLt
  have h1 : w.live[i.val]? = some (xs.get i) := by
    rw [hlive]; simp
  rw [live_getElem?, if_pos hi] at h1
  simp [SimpleVector.index, load, h1]

theorem insert_at_end_matches_pushBack_of_object [Element α] (v : SimpleVector α) (x : α)
    (hsc : v.size_ ≤ v.capacity_) (hcl : v.capacity_ ≤ v.items_.length) :
    ∃ w1 w2, v.InsertRef v.size_ (.object x) = .ok (w1, v.size_) ∧
      v.PushBack (.object x) = .ok w2 ∧
      w1.GetSize = w2.GetSize ∧ w1.GetCapacity = w2.GetCapacity ∧ w1.live = w2.live := by
  have hl : v.size_ ≤ v.items_.length := by omega
  obtain ⟨w1, h1, h1s, h1c, _, h1live⟩ := Insert_ok v v.size_ x hsc hl (le_refl _)
  obtain ⟨w2, h2, h2s, h2c, _, h2live⟩ := PushBack_ok v x hsc hcl
  refine ⟨w1, w2, by simpa only [SimpleVector.InsertRef, readItem] using h1, h2, ?_, ?_, ?_⟩
  · simp only [SimpleVector.GetSize, h1s, h2s]
  · simp only [SimpleVector.GetCapacity, h1c, h2c, pushCapacity]
    split_ifs <;> first | rfl | omega
  · rw [h1live, h2live]
    have hlen := live_length v hl
    rw [← hlen]
    exact insert_at_length v.live x

/-! ## Claims -/

/-- C1. Reading back pushed values fails when the pushed value is an element of
the array itself: `PushBack` takes its argument by reference and reads it only
after `Resize` has released the block it refers to.  After `v.PushBack(1)` the
array is `{1}` with capacity 1 and `v[0]` reads 1; `v.PushBack(v[0])` then reads
a dangling reference, so the run has no defined result and index 1 does not
hold the pushed value. -/
theorem C1_pushBack_own_element_dangles :
    ∃ v, (SimpleVector.empty : SimpleVector Nat).pushAll [.object 1] = .ok v ∧
      v.GetSize = 1 ∧ v.GetCapacity = 1 ∧ v.index 0 = .ok 1 ∧
      v.PushBack (.slot 0) = .error .undefinedBehaviour ∧
      (SimpleVector.empty : SimpleVector Nat).pushAll [.object 1, .slot 0]
        = .error .undefinedBehaviour :=
  ⟨{ items_ := [1], size_ := 1, capacity_ := 1 },
   by decide, by decide, by decide, by decide, by decide, by decide⟩

/-- C2. Doubling law of `PushBack`.  On every state with `size ≤ capacity`, and
for every argument, a `PushBack` that returns leaves the capacity unchanged when
`size < capacity`, sets it to 1 when the capacity is 0 and to exactly twice the
capacity when `size = capacity > 0`.  When the buffer holds its `capacity` slots
the call returns for every argument that is an object outside the array, and,
with spare room, for every argument that is a slot of the buffer.
Consequently every run of `N ≥ 1` pushes from the default-constructed array
that returns ends with the least power of two that is at least `N` as capacity,
and the run returns whenever the pushed arguments are objects outside the
array. -/
theorem C2_doubling_law [Element α] :
    (∀ (v w : SimpleVector α) (item : ItemRef α), v.size_ ≤ v.capacity_ →
      v.PushBack item = .ok w →
        (v.size_ < v.capacity_ → w.GetCapacity = v.capacity_) ∧
        (v.capacity_ = 0 → w.GetCapacity = 1) ∧
        (v.size_ = v.capacity_ → 0 < v.capacity_ → w.GetCapacity = 2 * v.capacity_)) ∧
    (∀ (v : SimpleVector α) (x : α), v.size_ ≤ v.capacity_ → v.capacity_ ≤ v.items_.length →
      ∃ w, v.PushBack (.object x) = .ok w) ∧
    (∀ (v : SimpleVector α) (i : Nat), v.size_ < v.capacity_ →
      v.capacity_ ≤ v.items_.length → i < v.items_.length →
      ∃ w, v.PushBack (.slot i) = .ok w) ∧
    (∀ (items : List (ItemRef α)) (w : SimpleVector α), items ≠ [] →
      (SimpleVector.empty : SimpleVector α).pushAll items = .ok w →
      ∃ k, w.GetCapacity = 2 ^ k ∧ items.length ≤ 2 ^ k ∧
        ∀ m, items.length ≤ 2 ^ m → 2 ^ k ≤ 2 ^ m) ∧
    (∀ xs : List α, ∃ w,
      (SimpleVector.empty : SimpleVector α).pushAll (xs.map ItemRef.object) = .ok w) := by
  refine ⟨?_, ?_, ?_, ?_, ?_⟩
  · intro v w item h1 hw
    have hwc := PushBack_capacity v w item h1 hw
    refine ⟨?_, ?_, ?_⟩
    · intro h
      rw [SimpleVector.GetCapacity, hwc, pushCapacity, if_neg (by omega), if_pos h]
    · intro h
      rw [SimpleVector.GetCapacity, hwc, pushCapacity, if_pos h]
    · intro h hpos
      rw [SimpleVector.GetCapacity, hwc, pushCapacity, if_neg (by omega), if_neg (by omega)]
      omega
  · intro v x h1 h2
    obtain ⟨w, hw, _⟩ := PushBack_ok v x h1 h2
    exact ⟨w, hw⟩
  · intro v i h1 h2 h3
    obtain ⟨w, _, _, hw, _⟩ := PushBack_slot_spare v i h1 h2 h3
    exact ⟨w, hw⟩
  · intro items w hne hw
    obtain ⟨hws, hwc, hwd⟩ := pushAll_counters items (SimpleVector.empty : SimpleVector α) w
      (by simp [SimpleVector.empty]) (Or.inl ⟨rfl, rfl⟩) hw
    have hsz : w.size_ = items.length := by simpa [SimpleVector.empty] using hws
    have hpos : 0 < items.length := List.length_pos.mpr hne
    exact doubled_least w.capacity_ items.length hpos (by omega) (by rw [← hsz]; exact hwd)
  · intro xs
    obtain ⟨w, hw, _⟩ := pushAll_ok xs (SimpleVector.empty : SimpleVector α)
      (by simp [SimpleVector.empty]) (by simp [SimpleVector.empty])
      (Or.inl ⟨rfl, rfl⟩)
    exact ⟨w, hw⟩

/-- C2, at a concrete input: pushing onto the full array `{1, 2}` of capacity 2
doubles the capacity, and three pushes into the empty array end at capacity 4. -/
theorem C2_doubling_law_witness :
    (∃ w, ({ items_ := [1, 2], size_ := 2, capacity_ := 2 } : SimpleVector Nat).PushBack
        (.object 3) = .ok w ∧ w.GetCapacity = 2 * 2) ∧
    (∃ w k, (SimpleVector.empty : SimpleVector Nat).pushAll [.object 5, .object 6, .object 7]
        = .ok w ∧
      w.GetCapacity = 2 ^ k ∧ 3 ≤ 2 ^ k ∧ ∀ m, 3 ≤ 2 ^ m → 2 ^ k ≤ 2 ^ m) := by
  constructor
  · obtain ⟨w, hw⟩ := (@C2_doubling_law Nat _).2.1
      { items_ := [1, 2], size_ := 2, capacity_ := 2 } 3 (by decide) (by decide)
    exact ⟨w, hw, ((@C2_doubling_law Nat _).1 _ w (.object 3) (by decide) hw).2.2 rfl
      (by decide)⟩
  · obtain ⟨w, hw⟩ := (@C2_doubling_law Nat _).2.2.2.2 [5, 6, 7]
    obtain ⟨k, hk⟩ := (@C2_doubling_law Nat _).2.2.2.1 [.object 5, .object 6, .object 7] w
      (by decide) hw
    exact ⟨w, k, hw, hk⟩

/-- C3. The invariant `size ≤ capacity` is broken by copy assignment: the last
exchange of `operator=` is `std::swap(capacity_, temp.size_)`, so the capacity of
the assigned array becomes its own old size.  Assigning `{1, 2, 3}` to a
default-constructed array gives size 3 with capacity 0. -/
theorem C3_copy_assign_breaks_invariant :
    ∃ b w, (SimpleVector.ofList [1, 2, 3] : Except Fault (SimpleVector Nat)) = .ok b ∧
      b.GetSize ≤ b.GetCapacity ∧
      (SimpleVector.empty : SimpleVector Nat).assign b = .ok w ∧
      w.GetSize = 3 ∧ w.GetCapacity = 0 ∧ ¬ (w.GetSize ≤ w.GetCapacity) :=
  ⟨{ items_ := [1, 2, 3], size_ := 3, capacity_ := 3 },
   { items_ := [1, 2, 3], size_ := 3, capacity_ := 0 },
   by decide, by decide, by decide, by decide, by decide, by decide⟩

/-- C4. On an array whose `n` live elements lie in its buffer, with
`n ≤ capacity`, `Insert(begin() + i, x)` for `i ≤ n` (`i = n` being `end()`)
succeeds; afterwards the size is `n + 1`, the live sequence is the old first `i`
elements, then `x`, then the old elements from `i` on, and the returned iterator
is at offset `i` of the new buffer, where `x` is stored. -/
theorem C4_insert_places_value [Element α] (v : SimpleVector α) (i : Nat) (x : α)
    (hsc : v.size_ ≤ v.capacity_) (hl : v.size_ ≤ v.items_.length) (hi : i ≤ v.size_) :
    ∃ w, v.Insert i x = .ok (w, i) ∧ w.GetSize = v.size_ + 1 ∧
      w.live = v.live.take i ++ x :: v.live.drop i ∧
      w.index i = .ok x ∧
      (∀ j, j < i → w.live[j]? = v.live[j]?) ∧
      (∀ j, i ≤ j → w.live[j + 1]? = v.live[j]?) := by
  obtain ⟨w, hw, hws, _, _, hlive⟩ := Insert_ok v i x hsc hl hi
  have hll : i ≤ v.live.length := by rw [live_length v hl]; exact hi
  refine ⟨w, hw, hws, hlive, ?_, ?_, ?_⟩
  · have h1 : w.live[i]? = some x := by
      rw [hlive, insert_getElem? v.live i x hll i, if_neg (by omega), if_pos rfl]
    rw [live_getElem?, if_pos (by omega)] at h1
    simp [SimpleVector.index, load, h1]
  · intro j hj
    rw [hlive, insert_getElem? v.live i x hll j, if_pos hj]
  · intro j hj
    rw [hlive, insert_getElem? v.live i x hll (j + 1), if_neg (by omega), if_neg (by omega)]
    simp

/-- C4, at a concrete input: inserting 99 at offset 2 of `{1, 2, 3, 4}`. -/
theorem C4_insert_places_value_witness :
    ∃ w, ({ items_ := [1, 2, 3, 4], size_ := 4, capacity_ := 4 } : SimpleVector Nat).Insert 2 99
        = .ok (w, 2) ∧ w.GetSize = 4 + 1 ∧
      w.live = [1, 2] ++ 99 :: [3, 4] := by
  obtain ⟨w, h1, h2, h3, _⟩ := C4_insert_places_value
    ({ items_ := [1, 2, 3, 4], size_ := 4, capacity_ := 4 } : SimpleVector Nat) 2 99
    (by decide) (by decide) (by decide)
  exact ⟨w, h1, h2, h3⟩

/-- C5. With spare room `Insert` allocates `size + 1` slots, not `capacity`:
on the array made by the reservation constructor with 4 slots, `Insert(begin(), 7)`
leaves the reported capacity at 4 while the adopted buffer holds one slot, and
the next `PushBack` writes past the end of that buffer. -/
theorem C5_insert_buffer_shorter_than_capacity :
    ∃ v w, (SimpleVector.ofReserve 4 : Except Fault (SimpleVector Nat)) = .ok v ∧
      v.size_ ≤ v.capacity_ ∧ v.items_.length = v.capacity_ ∧
      v.Insert 0 7 = .ok (w, 0) ∧
      w.GetCapacity = 4 ∧ w.items_.length = 1 ∧
      w.PushBack (.object 8) = .error .undefinedBehaviour :=
  ⟨{ items_ := [171, 171, 171, 171], size_ := 0, capacity_ := 4 },
   { items_ := [7], size_ := 1, capacity_ := 4 },
   by decide, by decide, by decide, by decide, by decide, by decide, by decide⟩

/-- C6. On an array whose `n` live elements lie in its buffer, `Erase(begin() + i)`
for `i < n` succeeds; afterwards the size is `n - 1`, the capacity is unchanged,
the live sequence is the old one without its element at index `i` (the elements
before `i` stay, those after `i` move one place to the left), and the returned
iterator is at offset `i`, which is `end()` when `i` was the last index. -/
theorem C6_erase_removes_one (v : SimpleVector α) (i : Nat)
    (hl : v.size_ ≤ v.items_.length) (hi : i < v.size_) :
    ∃ w, v.Erase i = .ok (w, i) ∧ w.GetSize = v.size_ - 1 ∧
      w.GetCapacity = v.capacity_ ∧
      w.live = v.live.eraseIdx i ∧
      (∀ j, j < i → w.live[j]? = v.live[j]?) ∧
      (∀ j, i ≤ j → w.live[j]? = v.live[j + 1]?) ∧
      (i + 1 = v.size_ → i = w.size_) := by
  obtain ⟨w, hw, hws, hwc, _, hlive⟩ := Erase_ok v i hl hi
  refine ⟨w, hw, hws, hwc, hlive, ?_, ?_, ?_⟩
  · intro j hj
    rw [hlive, List.getElem?_eraseIdx, if_pos hj]
  · intro j hj
    rw [hlive, List.getElem?_eraseIdx, if_neg (by omega)]
  · intro h
    omega

/-- C6, at a concrete input: erasing offset 1 of `{1, 2, 3, 4}`. -/
theorem C6_erase_removes_one_witness :
    ∃ w, ({ items_ := [1, 2, 3, 4], size_ := 4, capacity_ := 4 } : SimpleVector Nat).Erase 1
        = .ok (w, 1) ∧ w.GetSize = 3 ∧ w.GetCapacity = 4 ∧ w.live = [1, 3, 4] := by
  obtain ⟨w, h1, h2, h3, h4, _⟩ := C6_erase_removes_one
    ({ items_ := [1, 2, 3, 4], size_ := 4, capacity_ := 4 } : SimpleVector Nat) 1
    (by decide) (by decide)
  exact ⟨w, h1, h2, h3, h4⟩

/-- C7. `Resize` overwrites its parameter with the growth target before storing
it as the size: on `{1, 2}` (size 2, capacity 2) the call `Resize(3)` ends with
size 4, not 3. -/
theorem C7_resize_sets_size_to_growth_target :
    ∃ w, ({ items_ := [1, 2], size_ := 2, capacity_ := 2 } : SimpleVector Nat).Resize 3 = .ok w ∧
      w.GetSize = 4 ∧ w.GetSize ≠ 3 ∧ w.GetCapacity = 4 ∧ w.live = [1, 2, 0, 0] :=
  ⟨{ items_ := [1, 2, 0, 0], size_ := 4, capacity_ := 4 },
   by decide, by decide, by decide, by decide, by decide⟩

/-- C8. On an array whose `s` live elements lie in its buffer, `Resize(n)` with
`n > s` succeeds; the slots `[0, s)` of the new buffer hold the old elements,
every slot in `[s, n)` holds the default value of the element type, and the new
capacity is `max(n, 2 * capacity)`, hence at least `n`. -/
theorem C8_resize_grow_contents [Element α] (v : SimpleVector α) (n : Nat)
    (hl : v.size_ ≤ v.items_.length) (hn : v.size_ < n) :
    ∃ w, v.Resize n = .ok w ∧
      (∀ j, j < v.size_ → w.index j = v.index j ∧ w.items_[j]? = v.live[j]?) ∧
      (∀ j, v.size_ ≤ j → j < n → w.index j = .ok default) ∧
      w.GetCapacity = max n (2 * v.capacity_) ∧ n ≤ w.GetCapacity := by
  obtain ⟨w, hw, _, hwc, _, hget⟩ := Resize_grow_ok v n hn hl
  have hcomm : v.capacity_ * 2 = 2 * v.capacity_ := Nat.mul_comm _ _
  refine ⟨w, hw, ?_, ?_, ?_, ?_⟩
  · intro j hj
    have h := hget j
    rw [if_pos hj] at h
    refine ⟨?_, ?_⟩
    · simp only [SimpleVector.index, load, h]
    · rw [h, live_getElem?, if_pos hj]
  · intro j h1 h2
    have h := hget j
    rw [if_neg (by omega), if_pos (by omega)] at h
    simp only [SimpleVector.index, load, h]
  · rw [SimpleVector.GetCapacity, hwc, hcomm]
  · rw [SimpleVector.GetCapacity, hwc]
    omega

/-- C8, at a concrete input: `Resize(5)` on `{1, 2}` with capacity 2. -/
theorem C8_resize_grow_contents_witness :
    ∃ w, ({ items_ := [1, 2], size_ := 2, capacity_ := 2 } : SimpleVector Nat).Resize 5 = .ok w ∧
      (∀ j, j < 2 → w.index j
          = ({ items_ := [1, 2], size_ := 2, capacity_ := 2 } : SimpleVector Nat).index j) ∧
      (∀ j, 2 ≤ j → j < 5 → w.index j = .ok 0) ∧
      w.GetCapacity = 5 := by
  obtain ⟨w, h1, h2, h3, h4, _⟩ := C8_resize_grow_contents
    ({ items_ := [1, 2], size_ := 2, capacity_ := 2 } : SimpleVector Nat) 5
    (by decide) (by decide)
  exact ⟨w, h1, fun j hj => (h2 j hj).1, h3, h4⟩

/-- C9. Checked access.  `At(i)` throws the out-of-range error exactly when
`i ≥ size`; in particular `At(size)` and `At(size + 1)` throw.  The array is the
same after the call, whatever its outcome.  When `i < size`, on an array whose
live elements lie in its buffer, `At(i)` returns the live element at index `i`;
in particular `At(size - 1)` succeeds when `size > 0`. -/
theorem C9_at_checked_access (v : SimpleVector α) (i : Nat) :
    ((v.At i).1 = .error .outOfRange ↔ v.size_ ≤ i) ∧
    (v.At v.size_).1 = .error .outOfRange ∧
    (v.At (v.size_ + 1)).1 = .error .outOfRange ∧
    (v.At i).2 = v ∧
    (i < v.size_ → v.size_ ≤ v.items_.length →
      ∃ x, v.live[i]? = some x ∧ (v.At i).1 = .ok x) ∧
    (0 < v.size_ → v.size_ ≤ v.items_.length →
      ∃ x, v.live[v.size_ - 1]? = some x ∧ (v.At (v.size_ - 1)).1 = .ok x) := by
  have hsucc : ∀ k, k < v.size_ → v.size_ ≤ v.items_.length →
      ∃ x, v.live[k]? = some x ∧ (v.At k).1 = .ok x := by
    intro k hk hl
    have hkl : k < v.items_.length := by omega
    refine ⟨v.items_.get ⟨k, hkl⟩, ?_, ?_⟩
    · rw [live_getElem?, if_pos hk]
      exact List.getElem?_eq_getElem hkl
    · have hnot : ¬ k ≥ v.size_ := by omega
      simp only [SimpleVector.At, if_neg hnot]
      exact load_ok v.items_ k hkl
  refine ⟨?_, ?_, ?_, ?_, hsucc i, ?_⟩
  · constructor
    · intro h
      by_contra hcon
      have hnot : ¬ i ≥ v.size_ := hcon
      simp only [SimpleVector.At, if_neg hnot, load] at h
      cases hq : v.items_[i]? with
      | none => rw [hq] at h; simp at h
      | some y => rw [hq] at h; simp at h
    · intro h
      have hge : i ≥ v.size_ := h
      simp only [SimpleVector.At, if_pos hge]
  · have hge : v.size_ ≥ v.size_ := le_refl _
    simp only [SimpleVector.At, if_pos hge]
  · have hge : v.size_ + 1 ≥ v.size_ := by omega
    simp only [SimpleVector.At, if_pos hge]
  · unfold SimpleVector.At
    split_ifs <;> rfl
  · intro hpos hl
    exact hsucc (v.size_ - 1) (by omega) hl

/-- C9, at a concrete input: on `{10, 20, 30}`, `At(2)` returns 30 and `At(3)`
throws. -/
theorem C9_at_checked_access_witness :
    (∃ x, ({ items_ := [10, 20, 30], size_ := 3, capacity_ := 3 } : SimpleVector Nat).live[2]?
        = some x ∧
      (({ items_ := [10, 20, 30], size_ := 3, capacity_ := 3 } : SimpleVector Nat).At 2).1
        = .ok x) ∧
    (({ items_ := [10, 20, 30], size_ := 3, capacity_ := 3 } : SimpleVector Nat).At 3).1
      = .error .outOfRange :=
  ⟨(C9_at_checked_access
      ({ items_ := [10, 20, 30], size_ := 3, capacity_ := 3 } : SimpleVector Nat) 2).2.2.2.2.1
      (by decide) (by decide),
   (C9_at_checked_access
      ({ items_ := [10, 20, 30], size_ := 3, capacity_ := 3 } : SimpleVector Nat) 2).2.1⟩

/-- C10. Copy assignment gives the assigned array the size and the elements of
the source but not a capacity equal to that size: the capacity becomes the old
size of the assigned array.  Assigning `{1, 2, 3}` to `{7, 8, 9, 10, 11}` ends
with size 3 and capacity 5 over a buffer of 3 slots. -/
theorem C10_copy_assign_capacity_is_old_size :
    ∃ w, ({ items_ := [7, 8, 9, 10, 11], size_ := 5, capacity_ := 5 } : SimpleVector Nat).assign
        { items_ := [1, 2, 3], size_ := 3, capacity_ := 3 } = .ok w ∧
      w.GetSize = 3 ∧ w.live = [1, 2, 3] ∧ w.GetCapacity = 5 ∧ w.GetCapacity ≠ 3 ∧
      w.items_.length = 3 :=
  ⟨{ items_ := [1, 2, 3], size_ := 3, capacity_ := 5 },
   by decide, by decide, by decide, by decide, by decide, by decide⟩

/-- C11. The operator `==` is not element-wise equality: `operator>` is written
`!(lhs < rhs) && !(lhs >= rhs)`, which is false for every pair, so `a == b`
reduces to `!(a < b)`.  On `{1, 2, 4}` and `{1, 2, 3}`, of equal size and
different at index 2, `==` answers true and `!=` answers false. -/
theorem C11_equal_accepts_greater :
    ({ items_ := [1, 2, 4], size_ := 3, capacity_ := 3 } : SimpleVector Nat).equal
        { items_ := [1, 2, 3], size_ := 3, capacity_ := 3 } = .ok true ∧
    ({ items_ := [1, 2, 4], size_ := 3, capacity_ := 3 } : SimpleVector Nat).notEqual
        { items_ := [1, 2, 3], size_ := 3, capacity_ := 3 } = .ok false ∧
    ¬ ElementwiseEqual
        ({ items_ := [1, 2, 4], size_ := 3, capacity_ := 3 } : SimpleVector Nat).live
        ({ items_ := [1, 2, 3], size_ := 3, capacity_ := 3 } : SimpleVector Nat).live := by
  refine ⟨by decide, by decide, ?_⟩
  rintro ⟨_, h⟩
  have h2 := h 2 (by decide)
  simp [SimpleVector.live] at h2

/-- C12. The derived operators do not agree with `<` as in a total order:
`operator>` is false for every pair and `operator<=`, its negation, is true for
every pair.  With `a = {2}` and `b = {1}`, `b < a` holds, yet `a > b` answers
false and `a <= b` answers true; `a >= b` answers true, as `!(a < b)` should. -/
theorem C12_greater_is_always_false :
    ({ items_ := [1], size_ := 1, capacity_ := 1 } : SimpleVector Nat).less
        { items_ := [2], size_ := 1, capacity_ := 1 } = .ok true ∧
    ({ items_ := [2], size_ := 1, capacity_ := 1 } : SimpleVector Nat).greater
        { items_ := [1], size_ := 1, capacity_ := 1 } = .ok false ∧
    ({ items_ := [2], size_ := 1, capacity_ := 1 } : SimpleVector Nat).lessEq
        { items_ := [1], size_ := 1, capacity_ := 1 } = .ok true ∧
    ({ items_ := [2], size_ := 1, capacity_ := 1 } : SimpleVector Nat).greaterEq
        { items_ := [1], size_ := 1, capacity_ := 1 } = .ok true :=
  ⟨by decide, by decide, by decide, by decide⟩

/-- C13. For two arrays whose live elements lie in their buffers, over a linearly
ordered element type, `a < b` returns, and it returns true exactly when the live
sequence of `a` is a proper prefix of that of `b` or, at the first position where
the two differ, the element of `a` is less than that of `b`.  The answer is a
function of the two live sequences: capacities and slots at positions from the
size on have no influence. -/
theorem C13_less_is_lexicographic [LinearOrder α] (a b : SimpleVector α)
    (ha : a.size_ ≤ a.items_.length) (hb : b.size_ ≤ b.items_.length) :
    ∃ r, a.less b = .ok r ∧ (r = true ↔ LexLessSpec a.live b.live) ∧
      ∀ a1 b1 : SimpleVector α, a1.size_ ≤ a1.items_.length → b1.size_ ≤ b1.items_.length →
        a1.live = a.live → b1.live = b.live → a1.less b1 = .ok r := by
  refine ⟨lexLess a.live b.live, less_ok a b ha hb, lexLess_iff_spec a.live b.live, ?_⟩
  intro a1 b1 ha1 hb1 hla hlb
  rw [less_ok a1 b1 ha1 hb1, hla, hlb]

/-- C13, at concrete inputs: `{1, 2, 3} < {1, 2, 4}` and `{1, 2} < {1, 2, 3}`, the
second with spare slots behind the live elements. -/
theorem C13_less_is_lexicographic_witness :
    (∃ r, ({ items_ := [1, 2, 3], size_ := 3, capacity_ := 3 } : SimpleVector Nat).less
        { items_ := [1, 2, 4], size_ := 3, capacity_ := 3 } = .ok r ∧
      (r = true ↔ LexLessSpec [1, 2, 3] [1, 2, 4])) ∧
    ({ items_ := [1, 2, 3], size_ := 3, capacity_ := 3 } : SimpleVector Nat).less
        { items_ := [1, 2, 4], size_ := 3, capacity_ := 3 } = .ok true ∧
    ({ items_ := [1, 2, 9, 9], size_ := 2, capacity_ := 4 } : SimpleVector Nat).less
        { items_ := [1, 2, 3], size_ := 3, capacity_ := 3 } = .ok true := by
  obtain ⟨r, h1, h2, _⟩ := C13_less_is_lexicographic
    ({ items_ := [1, 2, 3], size_ := 3, capacity_ := 3 } : SimpleVector Nat)
    { items_ := [1, 2, 4], size_ := 3, capacity_ := 3 } (by decide) (by decide)
  exact ⟨⟨r, h1, h2⟩, by decide, by decide⟩

/-- C14. Reservation.  On an array with `size ≤ capacity` whose live elements lie
in its buffer, `Reserve(r)` succeeds, keeps the size and the live elements, and
leaves the capacity at `r` when `r > capacity` and unchanged otherwise.  The
array constructed from the reservation hint `Reserve(r)` has size 0 and
capacity `r`. -/
theorem C14_reservation [Element α] (v : SimpleVector α) (r : Nat)
    (hsc : v.size_ ≤ v.capacity_) (hl : v.size_ ≤ v.items_.length) :
    (∃ w, v.Reserve r = .ok w ∧ w.GetSize = v.size_ ∧ w.live = v.live ∧
      w.GetCapacity = (if r > v.capacity_ then r else v.capacity_)) ∧
    (∃ u, (SimpleVector.ofReserve r : Except Fault (SimpleVector α)) = .ok u ∧
      u.GetSize = 0 ∧ u.GetCapacity = r) := by
  obtain ⟨w, hw, hs, hlive, hc, _⟩ := Reserve_ok v r hsc hl
  obtain ⟨u, hu, hus, huc, _⟩ := @ofReserve_ok α _ r
  exact ⟨⟨w, hw, hs, hlive, hc⟩, ⟨u, hu, hus, huc⟩⟩

/-- C14, at a concrete input: `Reserve(5)` on `{1, 2}` with capacity 2. -/
theorem C14_reservation_witness :
    (∃ w, ({ items_ := [1, 2], size_ := 2, capacity_ := 2 } : SimpleVector Nat).Reserve 5 = .ok w ∧
      w.GetSize = 2 ∧ w.live = [1, 2] ∧ w.GetCapacity = 5) ∧
    (∃ u, (SimpleVector.ofReserve 5 : Except Fault (SimpleVector Nat)) = .ok u ∧
      u.GetSize = 0 ∧ u.GetCapacity = 5) :=
  C14_reservation ({ items_ := [1, 2], size_ := 2, capacity_ := 2 } : SimpleVector Nat) 5
    (by decide) (by decide)

/-- C15. Copy construction from a source with size `s` whose live elements lie in
its buffer succeeds; the copy has size `s`, capacity exactly `s` and the live
elements of the source in order.  Inside a free store the copy owns a new block:
after the call the source object stands for the same array as before, the two
objects have different blocks, and no change to the block of the copy, nor any
block allocated later, changes the array the source stands for. -/
theorem C15_copy_construction [Element α] (heap : List (List α)) (other : VecObj)
    (src : SimpleVector α) (hsrc : other.deref heap = .ok src)
    (hl : src.size_ ≤ src.items_.length) :
    ∃ w heap1 c, src.copy = .ok w ∧
      w.GetSize = src.size_ ∧ w.GetCapacity = src.size_ ∧ w.live = src.live ∧
      VecObj.copy heap other = .ok (heap1, c) ∧
      c.deref heap1 = .ok w ∧ other.deref heap1 = .ok src ∧
      c.items_ ≠ other.items_ ∧
      ∀ (blk : List α) (later : List (List α)),
        other.deref (heap1.set c.items_ blk ++ later) = .ok src := by
  obtain ⟨w, hw, hws, hwc, _, hwlive⟩ := copy_ok src hl
  have hlt := deref_lt heap other src hsrc
  have hne : heap.length ≠ other.items_ := by omega
  refine ⟨w, heap ++ [w.items_],
    { items_ := heap.length, size_ := w.size_, capacity_ := w.capacity_ },
    hw, hws, hwc, hwlive, ?_, ?_, deref_append heap _ other src hsrc, hne, ?_⟩
  · simp only [VecObj.copy, hsrc, hw]
  · simp [VecObj.deref]
  · intro blk later
    apply deref_append
    rw [deref_set_ne _ other _ blk hne]
    exact deref_append heap _ other src hsrc

/-- C15, at a concrete input: copying `{1, 2, 3}` held with capacity 4. -/
theorem C15_copy_construction_witness :
    ∃ w heap1 c,
      ({ items_ := [1, 2, 3, 0], size_ := 3, capacity_ := 4 } : SimpleVector Nat).copy = .ok w ∧
      w.GetSize = 3 ∧ w.GetCapacity = 3 ∧ w.live = [1, 2, 3] ∧
      VecObj.copy [[1, 2, 3, 0]] { items_ := 0, size_ := 3, capacity_ := 4 } = .ok (heap1, c) ∧
      c.items_ ≠ 0 := by
  obtain ⟨w, heap1, c, h1, h2, h3, h4, h5, _, _, h8, _⟩ := C15_copy_construction
    ([[1, 2, 3, 0]] : List (List Nat)) { items_ := 0, size_ := 3, capacity_ := 4 }
    { items_ := [1, 2, 3, 0], size_ := 3, capacity_ := 4 } (by decide) (by decide)
  exact ⟨w, heap1, c, h1, h2, h3, h4, h5, h8⟩

/-- C16. Move construction: the new array has the size, the capacity and the live
elements of the source, and the source is left with size 0 and capacity 0. -/
theorem C16_move_construction (v : SimpleVector α) :
    v.moveCtor.1.GetSize = v.size_ ∧ v.moveCtor.1.GetCapacity = v.capacity_ ∧
    v.moveCtor.1.live = v.live ∧
    v.moveCtor.2.GetSize = 0 ∧ v.moveCtor.2.GetCapacity = 0 :=
  ⟨rfl, rfl, rfl, rfl, rfl⟩

/-- C17. The statement `a = std::move(b)` runs the copy assignment, the only
assignment operator of the class: when the live elements of the source lie in
its buffer it succeeds, `a` receives the size and the live elements the source
held, and the source keeps its size and its live elements: it is not emptied.
This holds also when the source is `a` itself; a source that is another object
is left as it was. -/
theorem C17_move_assign_is_copy_assign [Element α] (a : SimpleVector α) (b : AssignSource α)
    (hl : (b.array a).size_ ≤ (b.array a).items_.length) :
    ∃ w s, a.assignMoved b = .ok (w, s) ∧
      w.GetSize = (b.array a).size_ ∧ w.live = (b.array a).live ∧
      s.GetSize = (b.array a).size_ ∧ s.live = (b.array a).live ∧
      ∀ b1, b = .other b1 → s = b1 := by
  obtain ⟨w, hw, hs, hlive, _⟩ := assign_ok a (b.array a) hl
  cases b with
  | self =>
    refine ⟨w, w, ?_, hs, hlive, hs, hlive, ?_⟩
    · simp only [SimpleVector.assignMoved, hw]
    · intro b1 h
      cases h
  | other b0 =>
    refine ⟨w, b0, ?_, hs, hlive, rfl, rfl, ?_⟩
    · simp only [SimpleVector.assignMoved, hw]
    · intro b1 h
      injection h with h

/-- C17, at a concrete input: `a = std::move(b)` with `a = {9}` and `b = {1, 2, 3}`. -/
theorem C17_move_assign_is_copy_assign_witness :
    ∃ w s, ({ items_ := [9], size_ := 1, capacity_ := 1 } : SimpleVector Nat).assignMoved
        (.other { items_ := [1, 2, 3], size_ := 3, capacity_ := 3 }) = .ok (w, s) ∧
      w.GetSize = 3 ∧ w.live = [1, 2, 3] ∧ s.GetSize = 3 ∧ s.live = [1, 2, 3] := by
  obtain ⟨w, s, h1, h2, h3, h4, h5, _⟩ := C17_move_assign_is_copy_assign
    ({ items_ := [9], size_ := 1, capacity_ := 1 } : SimpleVector Nat)
    (.other { items_ := [1, 2, 3], size_ := 3, capacity_ := 3 }) (by decide)
  exact ⟨w, s, h1, h2, h3, h4, h5⟩

/-- C17, as stated, fails: after `a = std::move(b)` with `b = {1, 2, 3}` the source
`b` still has size 3 and capacity 3, not size 0 and capacity 0. -/
theorem C17_move_assign_source_not_emptied :
    ∃ a1 b1, ({ items_ := [9], size_ := 1, capacity_ := 1 } : SimpleVector Nat).assignMoved
        (.other { items_ := [1, 2, 3], size_ := 3, capacity_ := 3 }) = .ok (a1, b1) ∧
      b1.GetSize = 3 ∧ b1.GetCapacity = 3 ∧ ¬ (b1.GetSize = 0 ∧ b1.GetCapacity = 0) :=
  ⟨{ items_ := [1, 2, 3], size_ := 3, capacity_ := 1 },
   { items_ := [1, 2, 3], size_ := 3, capacity_ := 3 },
   by decide, by decide, by decide, by decide⟩

/-- C18. The shrinking operations change the size only.  `Clear()` gives size 0;
`PopBack()` gives size `s - 1` when `s > 0` and leaves the array as it is when
`s = 0`; `Resize(n)` with `n ≤ s` succeeds and gives size `n`.  In all three the
capacity stays, the buffer is the same buffer with every slot as before, and the
live elements are the old ones below the new size. -/
theorem C18_shrinking_changes_size_only [Element α] (v : SimpleVector α) (n : Nat) :
    (v.Clear.GetSize = 0 ∧ v.Clear.GetCapacity = v.capacity_ ∧ v.Clear.items_ = v.items_) ∧
    ((0 < v.size_ → v.PopBack.GetSize = v.size_ - 1) ∧ (v.size_ = 0 → v.PopBack = v) ∧
      v.PopBack.GetCapacity = v.capacity_ ∧ v.PopBack.items_ = v.items_ ∧
      v.PopBack.live = v.live.take (v.size_ - 1)) ∧
    (n ≤ v.size_ → ∃ w, v.Resize n = .ok w ∧ w.GetSize = n ∧ w.GetCapacity = v.capacity_ ∧
      w.items_ = v.items_ ∧ w.live = v.live.take n) := by
  refine ⟨⟨rfl, rfl, rfl⟩, ⟨?_, ?_, ?_, ?_, ?_⟩, ?_⟩
  · intro h
    have hne : v.size_ ≠ 0 := by omega
    simp only [SimpleVector.PopBack, if_pos hne, SimpleVector.GetSize]
  · intro h
    have hne : ¬ v.size_ ≠ 0 := by omega
    simp only [SimpleVector.PopBack, if_neg hne]
  · unfold SimpleVector.PopBack
    split_ifs <;> rfl
  · unfold SimpleVector.PopBack
    split_ifs <;> rfl
  · unfold SimpleVector.PopBack
    split_ifs with h
    · simp only [SimpleVector.live, List.take_take]
      rw [Nat.min_eq_left (by omega)]
    · have h0 : v.size_ = 0 := by omega
      simp [SimpleVector.live, h0]
  · intro h
    refine ⟨{ v with size_ := n }, Resize_shrink v n h, rfl, rfl, rfl, ?_⟩
    simp only [SimpleVector.live, List.take_take]
    rw [Nat.min_eq_left h]

/-- C18, at a concrete input: `Resize(1)` on `{1, 2, 3}` with capacity 4. -/
theorem C18_shrinking_changes_size_only_witness :
    ∃ w, ({ items_ := [1, 2, 3, 0], size_ := 3, capacity_ := 4 } : SimpleVector Nat).Resize 1
        = .ok w ∧ w.GetSize = 1 ∧ w.GetCapacity = 4 ∧ w.items_ = [1, 2, 3, 0] ∧
      w.live = [1] := by
  obtain ⟨w, h1, h2, h3, h4, h5⟩ := (C18_shrinking_changes_size_only
    ({ items_ := [1, 2, 3, 0], size_ := 3, capacity_ := 4 } : SimpleVector Nat) 1).2.2
    (by decide)
  exact ⟨w, h1, h2, h3, h4, h5⟩

/-- C19. On an array with `size = n ≤ capacity` whose live elements lie in its
buffer, `Insert(begin() + i, x)` for `i ≤ n` followed by `Erase(begin() + i)` on
the result succeeds and gives an array of size `n` with the original live
sequence. -/
theorem C19_insert_then_erase [Element α] (v : SimpleVector α) (i : Nat) (x : α)
    (hsc : v.size_ ≤ v.capacity_) (hl : v.size_ ≤ v.items_.length) (hi : i ≤ v.size_) :
    ∃ w u, v.Insert i x = .ok (w, i) ∧ w.Erase i = .ok (u, i) ∧
      u.GetSize = v.size_ ∧ u.live = v.live := by
  obtain ⟨w, hw, hws, _, hwl, hwlive⟩ := Insert_ok v i x hsc hl hi
  have hge : w.size_ ≤ w.items_.length := by
    rw [hwl, hws]
    split_ifs <;> omega
  obtain ⟨u, hu, hus, _, _, hulive⟩ := Erase_ok w i hge (by omega)
  refine ⟨w, u, hw, hu, by simp only [SimpleVector.GetSize]; omega, ?_⟩
  rw [hulive, hwlive]
  exact insert_eraseIdx v.live i x (by rw [live_length v hl]; exact hi)

/-- C19, at the input of the example scenario: `{1, 2, 3, 4}`, insert 99 at
offset 2, erase at offset 2. -/
theorem C19_insert_then_erase_witness :
    ∃ w u, ({ items_ := [1, 2, 3, 4], size_ := 4, capacity_ := 4 } : SimpleVector Nat).Insert 2 99
        = .ok (w, 2) ∧ w.Erase 2 = .ok (u, 2) ∧ u.GetSize = 4 ∧ u.live = [1, 2, 3, 4] :=
  C19_insert_then_erase ({ items_ := [1, 2, 3, 4], size_ := 4, capacity_ := 4 } : SimpleVector Nat)
    2 99 (by decide) (by decide) (by decide)

/-- C20. `Insert(end(), x)` and `PushBack(x)` differ when `x` is an element of
the array itself and the array is full: on `{1, 2}` with capacity 2,
`Insert(end(), v[0])` reads `v[0]` while the old block is still owned and gives
`{1, 2, 1}`, whereas `PushBack(v[0])` reads the reference after `Resize` has
released that block and has no defined result. -/
theorem C20_pushBack_own_element_differs_from_insert :
    ∃ w, ({ items_ := [1, 2], size_ := 2, capacity_ := 2 } : SimpleVector Nat).InsertRef 2
        (.slot 0) = .ok (w, 2) ∧
      w.GetSize = 3 ∧ w.GetCapacity = 4 ∧ w.live = [1, 2, 1] ∧
      ({ items_ := [1, 2], size_ := 2, capacity_ := 2 } : SimpleVector Nat).PushBack (.slot 0)
        = .error .undefinedBehaviour :=
  ⟨{ items_ := [1, 2, 1, 171], size_ := 3, capacity_ := 4 },
   by decide, by decide, by decide, by decide, by decide⟩

end SimpleVec
